import Mathlib

/-!
Verification of the yacoin block/transaction library.

The development shallowly embeds the TypeScript sources (`ts_src/block.ts`,
which contains both the `Block` and `Transaction` classes) into Lean.
Byte buffers are `List Nat` with each element intended to be `< 256`;
machine integers are `Nat` (with explicit `% 2 ^ w` where wrap-around
matters) and the signed 32-bit `version` field is an `Int`.  Fallible
operations (buffer reads, strict parsing) return `Option` or
`Except String`.  The double-SHA256 function `bcrypto.hash256` and the
script code-separator stripping (`bscript`) are external collaborators of
the repository and are taken as opaque function parameters throughout.
-/

namespace Yacoin

/-- Little-endian byte encoding: `leBytes n v` is the `n`-byte little-endian
encoding of `v % 2 ^ (8 * n)`, as produced by the `BufferWriter` fixed-width
integer writers (`writeUInt32`, `writeUInt64`). -/
def leBytes : Nat → Nat → List Nat
  | 0, _ => []
  | n + 1, v => v % 256 :: leBytes n (v / 256)

/-- Numeric value of a little-endian byte list, as computed by the
`BufferReader` fixed-width integer readers. -/
def fromLE : List Nat → Nat
  | [] => 0
  | d :: ds => d + 256 * fromLE ds

/-- Reinterpret an unsigned 32-bit value as a signed 32-bit integer
(two's complement), as `Buffer.readInt32LE` does. -/
def toInt32 (u : Nat) : Int := if u < 2 ^ 31 then (u : Int) else (u : Int) - 2 ^ 32

/-- Bytes produced by `BufferWriter.writeInt32` for a signed 32-bit value. -/
def int32Bytes (v : Int) : List Nat := leBytes 4 ((v % (2 ^ 32 : Int))).toNat

/-- Read `n` raw bytes (`BufferReader.readSlice`); fails when fewer remain. -/
def readBytesN (n : Nat) (bs : List Nat) : Option (List Nat × List Nat) :=
  if n ≤ bs.length then some (bs.take n, bs.drop n) else none

/-- Model of `BufferReader.readUInt32`. -/
def readUInt32 (bs : List Nat) : Option (Nat × List Nat) :=
  (readBytesN 4 bs).map fun p => (fromLE p.1, p.2)

/-- Model of `BufferReader.readInt32`. -/
def readInt32 (bs : List Nat) : Option (Int × List Nat) :=
  (readBytesN 4 bs).map fun p => (toInt32 (fromLE p.1), p.2)

/-- Model of `BufferReader.readUInt64`: `bufferutils.readUInt64LE` rejects
(values above `2 ^ 53 - 1` via `verifuint`) any value not exactly
representable as a JavaScript number. -/
def readUInt64 (bs : List Nat) : Option (Nat × List Nat) :=
  (readBytesN 8 bs).bind fun p =>
    if fromLE p.1 ≤ 2 ^ 53 - 1 then some (fromLE p.1, p.2) else none

/-- Model of `varuint.encodingLength`. -/
def encodingLength (n : Nat) : Nat :=
  if n < 0xfd then 1 else if n ≤ 0xffff then 3 else if n ≤ 0xffffffff then 5 else 9

/-- Model of `varuint.encode` (CompactSize, always the minimal form). -/
def writeVarInt (n : Nat) : List Nat :=
  if n < 0xfd then [n]
  else if n ≤ 0xffff then 0xfd :: leBytes 2 n
  else if n ≤ 0xffffffff then 0xfe :: leBytes 4 n
  else 0xff :: leBytes 8 n

/-- Model of `varuint.decode` as used by `BufferReader.readVarInt`: the first
byte selects the width; any valid (also non-minimal) encoding is accepted;
the 8-byte form rejects values above `2 ^ 53 - 1` (`checkUInt53`). -/
def readVarInt : List Nat → Option (Nat × List Nat)
  | [] => none
  | b :: bs =>
    if b < 0xfd then some (b, bs)
    else if b = 0xfd then (readBytesN 2 bs).map fun p => (fromLE p.1, p.2)
    else if b = 0xfe then (readBytesN 4 bs).map fun p => (fromLE p.1, p.2)
    else (readBytesN 8 bs).bind fun p =>
      if fromLE p.1 ≤ 2 ^ 53 - 1 then some (fromLE p.1, p.2) else none

/-- Model of `BufferReader.readVarSlice`: CompactSize length then raw bytes. -/
def readVarSlice (bs : List Nat) : Option (List Nat × List Nat) :=
  (readVarInt bs).bind fun p => readBytesN p.1 p.2

/-- Model of `BufferWriter.writeVarSlice`. -/
def writeVarSlice (s : List Nat) : List Nat := writeVarInt s.length ++ s

/-- Model of `varSliceSize` from `transaction.ts`. -/
def varSliceSize (s : List Nat) : Nat := encodingLength s.length + s.length

/-- A transaction input (`Input` interface of `transaction.ts`). -/
structure Input where
  hash : List Nat
  index : Nat
  script : List Nat
  sequence : Nat
deriving DecidableEq, Inhabited

/-- A transaction output (`Output` interface of `transaction.ts`). -/
structure Output where
  script : List Nat
  value : Nat
deriving DecidableEq, Inhabited

/-- The `Transaction` class fields. -/
structure Transaction where
  version : Int
  time : Nat
  locktime : Nat
  ins : List Input
  outs : List Output
deriving DecidableEq, Inhabited

/-- Wire bytes of one input, as `__toBuffer` writes it. -/
def serializeInput (i : Input) : List Nat :=
  i.hash ++ leBytes 4 i.index ++ writeVarSlice i.script ++ leBytes 4 i.sequence

/-- Wire bytes of one output, as `__toBuffer` writes it.  The blank-output
sentinel used by the sighash algorithm stores the value `2 ^ 64 - 1`, whose
eight little-endian bytes coincide with the `VALUE_UINT64_MAX` buffer the
source writes for it, so the value branch covers both cases byte-for-byte. -/
def serializeOutput (o : Output) : List Nat :=
  leBytes 8 o.value ++ writeVarSlice o.script

/-- Full serialization of a transaction, mirroring `Transaction.__toBuffer`:
version, time (64-bit iff `version >= 2`), CompactSize-prefixed inputs and
outputs, locktime. -/
def serializeTx (t : Transaction) : List Nat :=
  int32Bytes t.version ++
  (if t.version ≥ 2 then leBytes 8 t.time else leBytes 4 t.time) ++
  writeVarInt t.ins.length ++ (t.ins.map serializeInput).flatten ++
  writeVarInt t.outs.length ++ (t.outs.map serializeOutput).flatten ++
  leBytes 4 t.locktime

/-- Model of `Transaction.byteLength`. -/
def Transaction.byteLength (t : Transaction) : Nat :=
  (if t.version ≥ 2 then 16 else 12) +
  encodingLength t.ins.length +
  encodingLength t.outs.length +
  t.ins.foldl (fun sum i => sum + 40 + varSliceSize i.script) 0 +
  t.outs.foldl (fun sum o => sum + 8 + varSliceSize o.script) 0

/-- Reader for one input inside `Transaction.fromBuffer`. -/
def readInput (bs : List Nat) : Option (Input × List Nat) := do
  let (h, bs) ← readBytesN 32 bs
  let (idx, bs) ← readUInt32 bs
  let (scr, bs) ← readVarSlice bs
  let (seq, bs) ← readUInt32 bs
  pure (⟨h, idx, scr, seq⟩, bs)

/-- Reader for one output inside `Transaction.fromBuffer`. -/
def readOutput (bs : List Nat) : Option (Output × List Nat) := do
  let (v, bs) ← readUInt64 bs
  let (scr, bs) ← readVarSlice bs
  pure (⟨scr, v⟩, bs)

/-- Run a reader a fixed number of times (the `for` loops of `fromBuffer`). -/
def readCount {α : Type} (r : List Nat → Option (α × List Nat)) :
    Nat → List Nat → Option (List α × List Nat)
  | 0, bs => some ([], bs)
  | k + 1, bs => do
    let (a, bs) ← r bs
    let (as, bs) ← readCount r k bs
    pure (a :: as, bs)

/-- Body of `Transaction.fromBuffer` before the strictness check: decode
version, time (width per version), input list, output list, locktime,
returning the transaction and the unconsumed tail. -/
def readTx (bs : List Nat) : Option (Transaction × List Nat) := do
  let (version, bs) ← readInt32 bs
  let (time, bs) ← if version ≥ 2 then readUInt64 bs else readUInt32 bs
  let (vinLen, bs) ← readVarInt bs
  let (ins, bs) ← readCount readInput vinLen bs
  let (voutLen, bs) ← readVarInt bs
  let (outs, bs) ← readCount readOutput voutLen bs
  let (locktime, bs) ← readUInt32 bs
  pure (⟨version, time, locktime, ins, outs⟩, bs)

/-- Model of `Transaction.fromBuffer`: reader failures surface as a range
error; in strict mode (`_NO_STRICT` unset) any unconsumed trailing bytes
raise the malformed-transaction error. -/
def Transaction.fromBuffer (bs : List Nat) (noStrict : Bool) : Except String Transaction :=
  match readTx bs with
  | none => .error "RangeError"
  | some (t, rest) =>
    if noStrict then .ok t
    else if rest = [] then .ok t
    else .error "Transaction has unexpected data"

/-- Model of `Transaction.isCoinbaseHash`: all of the first 32 bytes zero. -/
def isCoinbaseHash (bs : List Nat) : Bool :=
  (List.range 32).all fun i => bs.getD i 0 = 0

/-- Model of `Transaction.isCoinbase`: exactly one input whose previous-output
hash is the all-zero 32-byte value. -/
def Transaction.isCoinbase (t : Transaction) : Bool :=
  match t.ins with
  | [i] => isCoinbaseHash i.hash
  | _ => false

/-- Model of `Transaction.getHash`, parameterized by the external
`bcrypto.hash256` collaborator: 32 zero bytes for a coinbase transaction,
otherwise the double-hash of the full serialization. -/
def Transaction.getHash (h256 : List Nat → List Nat) (t : Transaction) : List Nat :=
  if t.isCoinbase then List.replicate 32 0 else h256 (serializeTx t)

/-! ### Well-formedness of transaction field values

Field ranges under which the JavaScript writers do not throw and the readers
accept what was written: 32-byte previous-output hashes (a `typeforce`
invariant of the data model), 32-bit unsigned `index`/`sequence`/`locktime`,
signed 32-bit `version`, 64-bit values and times capped at `2 ^ 53 - 1`
(every `readUInt64`/`writeUInt64` in `bufferutils` enforces JavaScript
number exactness), and list lengths within CompactSize's accepted range. -/

def WfInput (i : Input) : Prop :=
  i.hash.length = 32 ∧ i.index < 2 ^ 32 ∧ i.sequence < 2 ^ 32 ∧
  i.script.length ≤ 2 ^ 53 - 1

def WfOutput (o : Output) : Prop :=
  o.value ≤ 2 ^ 53 - 1 ∧ o.script.length ≤ 2 ^ 53 - 1

def WfTx (t : Transaction) : Prop :=
  -(2 ^ 31) ≤ t.version ∧ t.version < 2 ^ 31 ∧
  (2 ≤ t.version → t.time ≤ 2 ^ 53 - 1) ∧ (t.version < 2 → t.time < 2 ^ 32) ∧
  t.locktime < 2 ^ 32 ∧
  t.ins.length ≤ 2 ^ 53 - 1 ∧ t.outs.length ≤ 2 ^ 53 - 1 ∧
  (∀ i ∈ t.ins, WfInput i) ∧ (∀ o ∈ t.outs, WfOutput o)

instance : DecidablePred WfInput := fun i => by unfold WfInput; infer_instance

instance : DecidablePred WfOutput := fun o => by unfold WfOutput; infer_instance

instance : DecidablePred WfTx := fun t => by unfold WfTx; infer_instance

/-! ### The `Block` class -/

/-- The `Block` class fields; `transactions` is present only when a full
block (not just a header) was parsed or supplied. -/
structure Block where
  version : Int
  prevHash : List Nat
  merkleRoot : List Nat
  timestamp : Nat
  bits : Nat
  nonce : Nat
  transactions : Option (List Transaction)
deriving DecidableEq, Inhabited

/-- The 80-byte header serialization written by `Block.toBuffer`. -/
def Block.headerBytes (b : Block) : List Nat :=
  int32Bytes b.version ++ b.prevHash ++ b.merkleRoot ++
  leBytes 4 b.timestamp ++ leBytes 4 b.bits ++ leBytes 4 b.nonce

/-- Model of `Block.toBuffer`: the header, and — unless `headersOnly` is set
or `transactions` is absent — the CompactSize transaction count followed by
each transaction's serialization written back-to-back (the source advances
its write offset by each transaction's `byteLength()`, which equals the
serialized length for well-formed transactions). -/
def Block.toBuffer (b : Block) (headersOnly : Bool) : List Nat :=
  match headersOnly, b.transactions with
  | false, some ts => b.headerBytes ++ writeVarInt ts.length ++ (ts.map serializeTx).flatten
  | _, _ => b.headerBytes

/-- Model of `Block.getHash`: double-hash of the header-only serialization. -/
def Block.getHash (h256 : List Nat → List Nat) (b : Block) : List Nat :=
  h256 (b.toBuffer true)

/-- Lower-case hex digit of a value below 16. -/
def hexDigit (n : Nat) : Char := Char.ofNat (if n < 10 then 48 + n else 87 + n)

/-- Hex rendering of a byte list, as `Buffer.toString` with hex encoding. -/
def bytesToHex (bs : List Nat) : String :=
  ⟨bs.foldr (fun b acc => hexDigit (b / 16) :: hexDigit (b % 16) :: acc) []⟩

/-- Model of `Block.getId`: the block hash byte-reversed and hex-encoded. -/
def Block.getId (h256 : List Nat → List Nat) (b : Block) : String :=
  bytesToHex (b.getHash h256).reverse

/-- The header reader at the top of `Block.fromBuffer`. -/
def readHeader (bs : List Nat) : Option (Block × List Nat) := do
  let (version, bs) ← readInt32 bs
  let (prevHash, bs) ← readBytesN 32 bs
  let (merkleRoot, bs) ← readBytesN 32 bs
  let (timestamp, bs) ← readUInt32 bs
  let (bits, bs) ← readUInt32 bs
  let (nonce, bs) ← readUInt32 bs
  pure (⟨version, prevHash, merkleRoot, timestamp, bits, nonce, none⟩, bs)

/-- The transaction loop of `Block.fromBuffer`: each transaction is parsed
from the remaining bytes in trailing-bytes mode, and the cursor then advances
by that transaction's own `byteLength()`. -/
def readBlockTxs : Nat → List Nat → Option (List Transaction)
  | 0, _ => some []
  | k + 1, cur =>
    match readTx cur with
    | none => none
    | some (t, _) => (readBlockTxs k (cur.drop t.byteLength)).map fun ts => t :: ts

/-- Model of `Block.fromBuffer`: fewer than 80 bytes is an explicit error;
exactly 80 bytes parses as a header-only block; otherwise a CompactSize
transaction count and that many transactions follow (any bytes left after
them are not checked). -/
def Block.fromBuffer (bs : List Nat) : Except String Block :=
  if bs.length < 80 then .error "Buffer too small (< 80 bytes)"
  else
    match readHeader bs with
    | none => .error "RangeError"
    | some (b, rest) =>
      if bs.length = 80 then .ok b
      else
        match readVarInt rest with
        | none => .error "RangeError"
        | some (n, rest2) =>
          match readBlockTxs n rest2 with
          | none => .error "RangeError"
          | some ts => .ok { b with transactions := some ts }

/-- Field ranges under which the block writers do not throw and the readers
accept what was written; for a full block every transaction must itself be
well-formed. -/
def WfBlock (b : Block) : Prop :=
  -(2 ^ 31) ≤ b.version ∧ b.version < 2 ^ 31 ∧
  b.prevHash.length = 32 ∧ b.merkleRoot.length = 32 ∧
  b.timestamp < 2 ^ 32 ∧ b.bits < 2 ^ 32 ∧ b.nonce < 2 ^ 32 ∧
  (b.transactions.getD []).length ≤ 2 ^ 53 - 1 ∧
  ∀ t ∈ b.transactions.getD [], WfTx t

instance : DecidablePred WfBlock := fun b => by unfold WfBlock; infer_instance

/-! ### Proof-of-work target -/

/-- Big-endian 3-byte write performed by `writeUIntBE(mantissa, offset, 3)`. -/
def be3 (v : Nat) : List Nat := [v / 2 ^ 16 % 256, v / 2 ^ 8 % 256, v % 256]

/-- Model of `Block.calculateTarget`.  JavaScript bitwise semantics:
`(bits & 0xff000000) >> 24` reinterprets the top byte as a signed quantity
(values 128–255 come out negative), and `& 0x007fffff` keeps the low 23 bits;
`target.writeUIntBE(mantissa, 29 - exponent, 3)` throws a range error — here
`none` — when the write offset falls outside `0 … 29`. -/
def calculateTarget (bits : Nat) : Option (List Nat) :=
  let top : Nat := bits / 2 ^ 24 % 256
  let exponent : Int := (if top < 128 then (top : Int) else (top : Int) - 256) - 3
  let mantissa := bits % 2 ^ 23
  let offset : Int := 29 - exponent
  if 0 ≤ offset ∧ offset ≤ 29 then
    some (List.replicate offset.toNat 0 ++ be3 mantissa ++
      List.replicate (29 - offset.toNat) 0)
  else none

/-- Model of `Buffer.compare`: lexicographic byte order, shorter prefixes
first. -/
def compareBytes : List Nat → List Nat → Int
  | [], [] => 0
  | [], _ :: _ => -1
  | _ :: _, [] => 1
  | a :: as, b :: bs => if a < b then -1 else if b < a then 1 else compareBytes as bs

/-- Value of a byte list read as a big-endian unsigned integer. -/
def beNat (ds : List Nat) : Nat := ds.foldl (fun acc d => acc * 256 + d) 0

/-- Model of `Block.checkProofOfWork`: the block hash byte-reversed compared
against the decoded target; `none` when the target computation throws. -/
def Block.checkProofOfWork (h256 : List Nat → List Nat) (b : Block) : Option Bool :=
  (calculateTarget b.bits).map fun target =>
    decide (compareBytes (b.getHash h256).reverse target ≤ 0)

/-! ### Merkle root -/

/-- Modelled from the spec: one level of the `merkle-lib/fastRoot` reduction
(the dependency's code is not vendored in the repository) — pair adjacent
nodes left-to-right, duplicate the last node of an odd-length level, and
replace each pair by the double-hash of its concatenation. -/
def merkleLevel (h256 : List Nat → List Nat) : List (List Nat) → List (List Nat)
  | [] => []
  | [x] => [h256 (x ++ x)]
  | x :: y :: rest => h256 (x ++ y) :: merkleLevel h256 rest

/-- Modelled from the spec: the bottom-up level reduction of `fastRoot`,
with a fuel bound on the number of levels (each level at least halves the
node count, so `fuel = hs.length` always suffices). -/
def fastMerkleRootAux (h256 : List Nat → List Nat) : Nat → List (List Nat) → List (List Nat)
  | 0, hs => hs
  | fuel + 1, hs =>
    if hs.length ≤ 1 then hs else fastMerkleRootAux h256 fuel (merkleLevel h256 hs)

/-- Modelled from the spec: `fastRoot(hashes, hash256)` — reduce levels until
one node remains and return it. -/
def fastMerkleRoot (h256 : List Nat → List Nat) (hs : List (List Nat)) : List Nat :=
  (fastMerkleRootAux h256 hs.length hs).headD []

/-- Model of `Block.calculateMerkleRoot`: a distinct explicit error on an
empty transaction list, otherwise the `fastRoot` of the transactions'
identifier hashes (`getHash`) in order. -/
def calculateMerkleRoot (h256 : List Nat → List Nat) (ts : List Transaction) :
    Except String (List Nat) :=
  match ts with
  | [] => .error "Cannot compute merkle root for zero transactions"
  | _ => .ok (fastMerkleRoot h256 (ts.map (Transaction.getHash h256)))

/-! ### The `TransactionBuilder` mutation-legality checks

The `TransactionBuilder` implementation is only declared in
`types/transaction_builder.d.ts`; the state and checks below are modelled
from the spec (§4.4). -/

/-- Modelled from the spec: per-input builder metadata — the `hashType` of
each signature already applied to that input. -/
structure TxbInput where
  sigHashTypes : List Nat
deriving DecidableEq, Inhabited

/-- Modelled from the spec: the builder's assembly state — the in-progress
transaction and the parallel per-input metadata list. -/
structure TransactionBuilder where
  tx : Transaction
  inputs : List TxbInput
deriving DecidableEq, Inhabited

/-- Modelled from the spec: `addInput` is legal only when every applied
signature's hashType carries the "any one can pay" bit (bit 7). -/
def TransactionBuilder.canModifyInputs (b : TransactionBuilder) : Bool :=
  b.inputs.all fun i => i.sigHashTypes.all fun ht => ht.testBit 7

/-- Modelled from the spec: `addOutput` is legal unless some applied
signature's `hashType & 0x1f` is `ALL` (1), or is `SINGLE` (3) on an input
whose index is at or beyond the position the new output would take (the
current output count). -/
def TransactionBuilder.canModifyOutputs (b : TransactionBuilder) : Bool :=
  b.inputs.enum.all fun p =>
    p.2.sigHashTypes.all fun ht =>
      ht % 32 != 1 && (ht % 32 != 3 || decide (p.1 < b.tx.outs.length))

/-- Modelled from the spec: `addInput` — rejected (state unchanged) once the
input-set is frozen by a signature; otherwise appends the input, with the
default sequence `0xffffffff` and an empty script when unspecified, and
fresh empty metadata. -/
def TransactionBuilder.addInput (b : TransactionBuilder) (hash : List Nat) (index : Nat)
    (sequence : Option Nat) (scriptSig : Option (List Nat)) :
    Except String TransactionBuilder :=
  if b.canModifyInputs then
    .ok { tx := { b.tx with
            ins := b.tx.ins ++ [⟨hash, index, scriptSig.getD [], sequence.getD 4294967295⟩] },
          inputs := b.inputs ++ [⟨[]⟩] }
  else .error "No, this would invalidate signatures"

/-- Modelled from the spec: `addOutput` — rejected (state unchanged) once the
output list is frozen by a signature; otherwise appends the output. -/
def TransactionBuilder.addOutput (b : TransactionBuilder) (scriptPubKey : List Nat)
    (value : Nat) : Except String TransactionBuilder :=
  if b.canModifyOutputs then
    .ok { b with tx := { b.tx with outs := b.tx.outs ++ [⟨scriptPubKey, value⟩] } }
  else .error "No, this would invalidate signatures"

/-! ### The signature-hash computation over a heap of input objects

In the source, `Transaction.ins` is an array of references to mutable input
records; `hashForSignature` clones the transaction (fresh records copying the
originals' field values) and then mutates the clone's records in place
(`input.sequence = 0`, `input.script = …`).  The embedding makes that store
explicit: a `Heap` of input records, transactions holding references into it,
and each in-place loop a fold over the clone's references. -/

/-- The heap of input records.  Output records are never field-mutated by the
source (they are only replaced or truncated wholesale), so outputs stay pure
values. -/
abbrev Heap := List Input

/-- Read an input record (out-of-range reads yield the default record). -/
def heapGet (h : Heap) (r : Nat) : Input := h.getD r default

/-- A transaction whose input records live on the heap. -/
structure TxH where
  version : Int
  time : Nat
  locktime : Nat
  ins : List Nat
  outs : List Output
deriving DecidableEq, Inhabited

/-- The pure transaction value a heap transaction denotes. -/
def resolveTx (h : Heap) (t : TxH) : Transaction :=
  ⟨t.version, t.time, t.locktime, t.ins.map (heapGet h), t.outs⟩

/-- Consecutive references `n, n+1, …, n+k-1`: fresh allocations. -/
def consRange : Nat → Nat → List Nat
  | _, 0 => []
  | n, k + 1 => n :: consRange (n + 1) k

/-- Model of `Transaction.clone`: allocate fresh input records copying the
originals' field values; the clone's scalar fields and outputs copy the
original's, and its `ins` reference the fresh records. -/
def cloneTx (h : Heap) (t : TxH) : TxH × Heap :=
  (⟨t.version, t.time, t.locktime, consRange h.length t.ins.length, t.outs⟩,
   h ++ t.ins.map (heapGet h))

/-- An indexed in-place update pass over a list of references
(`forEach` with the element index starting at `j`). -/
def updateFrom (f : Nat → Input → Input) : Heap → Nat → List Nat → Heap
  | h, _, [] => h
  | h, j, r :: rs => updateFrom f (h.set r (f j (heapGet h r))) (j + 1) rs

/-- In-place `input.sequence = 0` on every input except position `i`. -/
def zeroSeqExcept (i : Nat) (h : Heap) (refs : List Nat) : Heap :=
  updateFrom (fun j o => if j = i then o else { o with sequence := 0 }) h 0 refs

/-- In-place `input.script = EMPTY_SCRIPT` on every input. -/
def blankScripts (h : Heap) (refs : List Nat) : Heap :=
  updateFrom (fun _ o => { o with script := [] }) h 0 refs

/-- In-place `input.script = s` on one record. -/
def setScriptRef (h : Heap) (r : Nat) (s : List Nat) : Heap :=
  h.set r { heapGet h r with script := s }

/-- The fixed 32-byte sentinel `ONE` returned by the sighash edge cases. -/
def ONE32 : List Nat := List.replicate 31 0 ++ [1]

/-- The `BLANK_OUTPUT` placeholder: empty script, and a value whose eight
little-endian bytes are the `VALUE_UINT64_MAX` buffer the source writes. -/
def BLANK_OUTPUT : Output := ⟨[], 2 ^ 64 - 1⟩

/-- The common tail of `hashForSignature`: the "any one can pay" branch
reduces the clone's inputs to input `inIndex` and gives it the stripped
script; otherwise every clone input's script is blanked and input `inIndex`
gets the stripped script.  Then the clone is serialized with the `hashType`
32-bit little-endian trailer and double-hashed.  (The source allocates a
buffer of `byteLength() + 4`, writes the trailer at the end with
`writeInt32LE` and serializes into the front; under the data model's
32-byte `prevHash` invariant the serialization fills exactly `byteLength()`
bytes, so the buffer is the serialization concatenated with the trailer.) -/
def finishSigHash (h256 : List Nat → List Nat) (txTmp : TxH) (h2 : Heap)
    (inIndex : Nat) (ourScript : List Nat) (hashType : Nat) : List Nat × Heap :=
  let st :=
    if hashType.testBit 7 then
      ({ txTmp with ins := [txTmp.ins.getD inIndex 0] },
       setScriptRef h2 (txTmp.ins.getD inIndex 0) ourScript)
    else
      (txTmp, setScriptRef (blankScripts h2 txTmp.ins) (txTmp.ins.getD inIndex 0) ourScript)
  (h256 (serializeTx (resolveTx st.2 st.1) ++ leBytes 4 hashType), st.2)

/-- Model of `Transaction.hashForSignature`, parameterized by the external
`bcrypto.hash256` collaborator and the code-separator stripping
(`bscript.compile(bscript.decompile(prevOutScript).filter(…))`) collaborator
`stripCS`.  Returns the digest together with the post-call heap. -/
def hashForSignature (h256 stripCS : List Nat → List Nat) (heap : Heap) (tx : TxH)
    (inIndex : Nat) (prevOutScript : List Nat) (hashType : Nat) : List Nat × Heap :=
  if tx.ins.length ≤ inIndex then (ONE32, heap)
  else
    let ourScript := stripCS prevOutScript
    let ch := cloneTx heap tx
    if hashType % 32 = 2 then
      let txTmp2 : TxH := { ch.1 with outs := [] }
      finishSigHash h256 txTmp2 (zeroSeqExcept inIndex ch.2 txTmp2.ins)
        inIndex ourScript hashType
    else if hashType % 32 = 3 then
      if tx.outs.length ≤ inIndex then (ONE32, ch.2)
      else
        let txTmp2 : TxH := { ch.1 with
          outs := List.replicate inIndex BLANK_OUTPUT ++ [ch.1.outs.getD inIndex default] }
        finishSigHash h256 txTmp2 (zeroSeqExcept inIndex ch.2 txTmp2.ins)
          inIndex ourScript hashType
    else finishSigHash h256 ch.1 ch.2 inIndex ourScript hashType

/-- The mutated clone of the signature-hash algorithm as a pure transaction
value (spec steps 3–4): `NONE` clears the outputs and zeroes every other
input's sequence; `SINGLE` truncates the outputs to `inIndex + 1`, blanks the
earlier ones and zeroes every other input's sequence; the "any one can pay"
bit reduces the inputs to input `inIndex` carrying the stripped script, and
otherwise every other input's script is blanked while input `inIndex` gets
the stripped script. -/
def sigHashClone (stripCS : List Nat → List Nat) (t : Transaction) (inIndex : Nat)
    (prevOutScript : List Nat) (hashType : Nat) : Transaction :=
  let ourScript := stripCS prevOutScript
  let zeroed := t.ins.mapIdx fun j i => if j = inIndex then i else { i with sequence := 0 }
  let t1 :=
    if hashType % 32 = 2 then { t with outs := [], ins := zeroed }
    else if hashType % 32 = 3 then
      { t with
          outs := List.replicate inIndex BLANK_OUTPUT ++ [t.outs.getD inIndex default]
          ins := zeroed }
    else t
  if hashType.testBit 7 then
    { t1 with ins := [{ t1.ins.getD inIndex default with script := ourScript }] }
  else
    { t1 with ins := t1.ins.mapIdx fun j i =>
        { i with script := if j = inIndex then ourScript else [] } }

/-! ### Length lemmas for the serializer -/

theorem leBytes_length (n v : Nat) : (leBytes n v).length = n := by
  induction n generalizing v with
  | zero => rfl
  | succ n ih => simp [leBytes, ih]

theorem int32Bytes_length (v : Int) : (int32Bytes v).length = 4 := by
  simp [int32Bytes, leBytes_length]

theorem writeVarInt_length (n : Nat) : (writeVarInt n).length = encodingLength n := by
  unfold writeVarInt encodingLength
  split
  · rfl
  · split
    · simp [leBytes_length]
    · split <;> simp [leBytes_length]

theorem writeVarSlice_length (s : List Nat) : (writeVarSlice s).length = varSliceSize s := by
  simp [writeVarSlice, varSliceSize, writeVarInt_length]

theorem serializeInput_length (i : Input) (h : i.hash.length = 32) :
    (serializeInput i).length = 40 + varSliceSize i.script := by
  simp [serializeInput, h, leBytes_length, writeVarSlice_length]
  omega

theorem serializeOutput_length (o : Output) :
    (serializeOutput o).length = 8 + varSliceSize o.script := by
  simp [serializeOutput, leBytes_length, writeVarSlice_length]
  try omega

theorem foldl_add_shape {α : Type} (c : Nat) (f : α → Nat) (l : List α) (acc : Nat) :
    l.foldl (fun s a => s + c + f a) acc = acc + (l.map fun a => c + f a).sum := by
  induction l generalizing acc with
  | nil => simp
  | cons a l ih => simp [ih]; omega

/-- `C6` helper: the serialized byte list has exactly `byteLength` bytes. -/
theorem serializeTx_length (t : Transaction) (hhash : ∀ i ∈ t.ins, i.hash.length = 32) :
    (serializeTx t).length = t.byteLength := by
  have hins : (t.ins.map fun i => (serializeInput i).length)
      = t.ins.map fun i => 40 + varSliceSize i.script := by
    refine List.map_congr_left fun i hi => ?_
    exact serializeInput_length i (hhash i hi)
  have houts : (t.outs.map fun o => (serializeOutput o).length)
      = t.outs.map fun o => 8 + varSliceSize o.script := by
    refine List.map_congr_left fun o _ => serializeOutput_length o
  simp only [serializeTx, Transaction.byteLength, List.length_append,
    List.length_flatten, List.map_map, Function.comp_def,
    int32Bytes_length, writeVarInt_length, leBytes_length, hins, houts,
    foldl_add_shape]
  split <;> simp [leBytes_length] <;> try omega

/-- C6: for every transaction (with the 32-byte `prevHash` invariant of the
data model), `byteLength()` equals the exact length of the serialization, and
equals the fixed header size (16 when `version >= 2`, else 12) plus the
CompactSize encoding lengths of the two counts plus `40 + varSlice(script)`
per input and `8 + varSlice(script)` per output. -/
theorem c6_byteLength_matches_serialization (t : Transaction)
    (hhash : ∀ i ∈ t.ins, i.hash.length = 32) :
    t.byteLength = (serializeTx t).length ∧
    t.byteLength = (if t.version ≥ 2 then 16 else 12)
      + encodingLength t.ins.length + encodingLength t.outs.length
      + (t.ins.map fun i => 40 + varSliceSize i.script).sum
      + (t.outs.map fun o => 8 + varSliceSize o.script).sum := by
  refine ⟨(serializeTx_length t hhash).symm, ?_⟩
  simp only [Transaction.byteLength, foldl_add_shape]
  omega

/-- Witness for C6 at a concrete one-input one-output transaction. -/
theorem c6_witness :
    Transaction.byteLength
        ⟨1, 5, 0, [⟨List.replicate 32 0, 0, [1, 2], 4294967295⟩], [⟨[81], 1000⟩]⟩
      = (serializeTx
        ⟨1, 5, 0, [⟨List.replicate 32 0, 0, [1, 2], 4294967295⟩], [⟨[81], 1000⟩]⟩).length :=
  (c6_byteLength_matches_serialization _ (by decide)).1

/-! ### Coinbase identifier hash (C3) and strict parsing (C8) -/

theorem isCoinbaseHash_iff (bs : List Nat) (h : bs.length = 32) :
    isCoinbaseHash bs = true ↔ bs = List.replicate 32 0 := by
  constructor
  · intro hz
    simp only [isCoinbaseHash, List.all_eq_true, List.mem_range, decide_eq_true_eq] at hz
    refine List.ext_getElem (by simp [h]) fun i h1 h2 => ?_
    have h3 := hz i (by omega)
    rw [List.getD_eq_getElem bs 0 h1] at h3
    rw [h3, List.getElem_replicate]
  · intro hz
    subst hz
    decide

/-- C3: `identifierHash()` (i.e. `Transaction.getHash`) returns the 32 zero
bytes exactly for coinbase transactions — one input whose `prevHash` is 32
zero bytes — and for non-coinbase transactions returns the double-hash of the
full serialization; the backward direction of the first equivalence makes the
cryptographic assumption explicit that the double-hash of this transaction's
serialization is not itself the all-zero digest. -/
theorem c3_identifierHash (h256 : List Nat → List Nat) (t : Transaction)
    (hhash : ∀ i ∈ t.ins, i.hash.length = 32)
    (hnz : h256 (serializeTx t) ≠ List.replicate 32 0) :
    (t.getHash h256 = List.replicate 32 0 ↔ t.isCoinbase = true) ∧
    (t.isCoinbase = true ↔ (t.ins.map fun i => i.hash) = [List.replicate 32 0]) ∧
    (t.isCoinbase = false → t.getHash h256 = h256 (serializeTx t)) := by
  have hcoin : t.isCoinbase = true ↔ (t.ins.map fun i => i.hash) = [List.replicate 32 0] := by
    match ht : t.ins with
    | [] => simp [Transaction.isCoinbase, ht]
    | [i] =>
      have := isCoinbaseHash_iff i.hash (hhash i (by simp [ht]))
      simp [Transaction.isCoinbase, ht, this]
    | i :: j :: l => simp [Transaction.isCoinbase, ht]
  refine ⟨?_, hcoin, ?_⟩
  · unfold Transaction.getHash
    split
    · rename_i hcb
      simp [hcb]
    · rename_i hcb
      constructor
      · exact fun hc => absurd hc hnz
      · exact fun hc => absurd hc hcb
  · intro hnc
    unfold Transaction.getHash
    simp [hnc]

/-- Witness for C3 at a concrete coinbase transaction and a concrete stand-in
for the double-hash function. -/
theorem c3_witness :
    ((Transaction.getHash (fun _ => List.replicate 32 1)
        ⟨1, 0, 0, [⟨List.replicate 32 0, 4294967295, [3], 4294967295⟩], []⟩
        = List.replicate 32 0 ↔
      Transaction.isCoinbase
        ⟨1, 0, 0, [⟨List.replicate 32 0, 4294967295, [3], 4294967295⟩], []⟩ = true)) ∧
    (Transaction.isCoinbase
        ⟨1, 0, 0, [⟨List.replicate 32 0, 4294967295, [3], 4294967295⟩], []⟩ = true ↔
      (Transaction.ins ⟨1, 0, 0, [⟨List.replicate 32 0, 4294967295, [3], 4294967295⟩], []⟩).map
        (fun i => i.hash) = [List.replicate 32 0]) ∧
    (Transaction.isCoinbase
        ⟨1, 0, 0, [⟨List.replicate 32 0, 4294967295, [3], 4294967295⟩], []⟩ = false →
      Transaction.getHash (fun _ => List.replicate 32 1)
        ⟨1, 0, 0, [⟨List.replicate 32 0, 4294967295, [3], 4294967295⟩], []⟩
        = List.replicate 32 1) :=
  c3_identifierHash (fun _ => List.replicate 32 1) _ (by decide) (by decide)

/-- C8: when the transaction body decodes leaving an unconsumed tail, strict
parsing (`_NO_STRICT` unset) fails with the malformed-transaction error
exactly when the tail is nonempty, while the trailing-bytes hint makes the
same bytes parse successfully. -/
theorem c8_strict_trailing_bytes (bs : List Nat) (t : Transaction) (rest : List Nat)
    (h : readTx bs = some (t, rest)) :
    Transaction.fromBuffer bs true = .ok t ∧
    (rest ≠ [] →
      Transaction.fromBuffer bs false = .error "Transaction has unexpected data") ∧
    (rest = [] → Transaction.fromBuffer bs false = .ok t) := by
  unfold Transaction.fromBuffer
  rw [h]
  refine ⟨rfl, fun hne => ?_, fun he => ?_⟩
  · simp [hne]
  · simp [he]

/-- Witness for C8: a minimal empty transaction encoding followed by one
trailing byte parses with the hint set and is rejected by a strict parse. -/
theorem c8_witness :
    Transaction.fromBuffer [1, 0, 0, 0, 0, 0, 0, 0, 0, 0, 0, 0, 0, 0, 99] true
      = .ok ⟨1, 0, 0, [], []⟩ ∧
    ([99] ≠ ([] : List Nat) →
      Transaction.fromBuffer [1, 0, 0, 0, 0, 0, 0, 0, 0, 0, 0, 0, 0, 0, 99] false
        = .error "Transaction has unexpected data") ∧
    ([99] = ([] : List Nat) →
      Transaction.fromBuffer [1, 0, 0, 0, 0, 0, 0, 0, 0, 0, 0, 0, 0, 0, 99] false
        = .ok ⟨1, 0, 0, [], []⟩) :=
  c8_strict_trailing_bytes _ _ _ (by decide)

/-! ### Round-trip lemmas for the primitive readers and writers (C2) -/

theorem fromLE_leBytes (n v : Nat) : fromLE (leBytes n v) = v % 2 ^ (8 * n) := by
  induction n generalizing v with
  | zero => simp [leBytes, fromLE, Nat.mod_one]
  | succ n ih =>
    have h : 2 ^ (8 * (n + 1)) = 256 * 2 ^ (8 * n) := by ring
    rw [leBytes, fromLE, ih, h, Nat.mod_mul]

theorem fromLE_lt (ds : List Nat) (hb : ∀ d ∈ ds, d < 256) :
    fromLE ds < 2 ^ (8 * ds.length) := by
  induction ds with
  | nil => simp [fromLE]
  | cons d ds ih =>
    have h1 : d < 256 := hb d (by simp)
    have h2 : fromLE ds < 2 ^ (8 * ds.length) := ih fun x hx => hb x (by simp [hx])
    have h3 : 2 ^ (8 * (d :: ds).length) = 256 * 2 ^ (8 * ds.length) := by
      simp [List.length_cons]; ring
    rw [fromLE, h3]
    calc d + 256 * fromLE ds < 256 + 256 * fromLE ds := by omega
    _ ≤ 256 * 2 ^ (8 * ds.length) := by omega

theorem leBytes_fromLE (ds : List Nat) (n : Nat) (h : ds.length = n)
    (hb : ∀ d ∈ ds, d < 256) : leBytes n (fromLE ds) = ds := by
  induction ds generalizing n with
  | nil => subst h; rfl
  | cons d ds ih =>
    subst h
    have h1 : d < 256 := hb d (by simp)
    rw [List.length_cons, fromLE, leBytes]
    have h2 : (d + 256 * fromLE ds) % 256 = d := by
      rw [Nat.add_mul_mod_self_left, Nat.mod_eq_of_lt h1]
    have h3 : (d + 256 * fromLE ds) / 256 = fromLE ds := by
      rw [Nat.add_mul_div_left _ _ (by norm_num : (0:Nat) < 256),
        Nat.div_eq_of_lt h1, Nat.zero_add]
    rw [h2, h3, ih _ rfl fun x hx => hb x (List.mem_cons_of_mem d hx)]

theorem readBytesN_append (s r : List Nat) (n : Nat) (h : s.length = n) :
    readBytesN n (s ++ r) = some (s, r) := by
  unfold readBytesN
  rw [if_pos (show n ≤ (s ++ r).length by rw [List.length_append]; omega)]
  rw [List.take_left' h, List.drop_left' h]

theorem readUInt32_leBytes (v : Nat) (h : v < 2 ^ 32) (r : List Nat) :
    readUInt32 (leBytes 4 v ++ r) = some (v, r) := by
  unfold readUInt32
  rw [readBytesN_append _ _ 4 (leBytes_length 4 v)]
  simp only [Option.map_some']
  rw [fromLE_leBytes, Nat.mod_eq_of_lt (show v < 2 ^ (8 * 4) by norm_num at h ⊢; omega)]

theorem readUInt64_leBytes (v : Nat) (h : v ≤ 2 ^ 53 - 1) (r : List Nat) :
    readUInt64 (leBytes 8 v ++ r) = some (v, r) := by
  unfold readUInt64
  rw [readBytesN_append _ _ 8 (leBytes_length 8 v)]
  simp only [Option.some_bind]
  rw [fromLE_leBytes, Nat.mod_eq_of_lt (show v < 2 ^ (8 * 8) by norm_num at h ⊢; omega)]
  rw [if_pos h]

theorem toInt32_int32 (v : Int) (h1 : -(2 ^ 31) ≤ v) (h2 : v < 2 ^ 31) :
    toInt32 ((v % (2 ^ 32 : Int))).toNat = v := by
  unfold toInt32
  split <;> omega

theorem readInt32_int32Bytes (v : Int) (h1 : -(2 ^ 31) ≤ v) (h2 : v < 2 ^ 31)
    (r : List Nat) : readInt32 (int32Bytes v ++ r) = some (v, r) := by
  unfold readInt32 int32Bytes
  rw [readBytesN_append _ _ 4 (leBytes_length 4 _)]
  simp only [Option.map_some']
  rw [fromLE_leBytes]
  have hlt : ((v % (2 ^ 32 : Int))).toNat < 2 ^ (8 * 4) := by norm_num; omega
  rw [Nat.mod_eq_of_lt hlt, toInt32_int32 v h1 h2]

theorem int32Bytes_toInt32 (u : Nat) (h : u < 2 ^ 32) :
    int32Bytes (toInt32 u) = leBytes 4 u := by
  unfold int32Bytes toInt32
  congr 1
  split <;> omega

theorem readVarInt_writeVarInt (n : Nat) (h : n ≤ 2 ^ 53 - 1) (r : List Nat) :
    readVarInt (writeVarInt n ++ r) = some (n, r) := by
  unfold writeVarInt
  by_cases h1 : n < 0xfd
  · simp [h1, readVarInt]
  · by_cases h2 : n ≤ 0xffff
    · simp only [h1, h2, if_true, if_false, List.cons_append]
      rw [readVarInt]
      rw [if_neg (by omega), if_pos rfl, readBytesN_append _ _ 2 (leBytes_length 2 n)]
      simp only [Option.map_some']
      rw [fromLE_leBytes, Nat.mod_eq_of_lt (show n < 2 ^ (8 * 2) by norm_num; omega)]
    · by_cases h3 : n ≤ 0xffffffff
      · simp only [h1, h2, h3, if_true, if_false, List.cons_append]
        rw [readVarInt]
        rw [if_neg (by omega), if_neg (by omega), if_pos rfl,
          readBytesN_append _ _ 4 (leBytes_length 4 n)]
        simp only [Option.map_some']
        rw [fromLE_leBytes, Nat.mod_eq_of_lt (show n < 2 ^ (8 * 4) by norm_num; omega)]
      · simp only [h1, h2, h3, if_false, List.cons_append]
        rw [readVarInt]
        rw [if_neg (by omega), if_neg (by omega), if_neg (by omega),
          readBytesN_append _ _ 8 (leBytes_length 8 n)]
        simp only [Option.some_bind]
        rw [fromLE_leBytes,
          Nat.mod_eq_of_lt (show n < 2 ^ (8 * 8) by norm_num at h ⊢; omega)]
        rw [if_pos h]

theorem readVarSlice_writeVarSlice (s : List Nat) (h : s.length ≤ 2 ^ 53 - 1)
    (r : List Nat) : readVarSlice (writeVarSlice s ++ r) = some (s, r) := by
  unfold readVarSlice writeVarSlice
  rw [List.append_assoc, readVarInt_writeVarInt _ h]
  simp only [Option.some_bind]
  exact readBytesN_append s r s.length rfl

theorem readInput_serializeInput (i : Input) (h : WfInput i) (r : List Nat) :
    readInput (serializeInput i ++ r) = some (i, r) := by
  obtain ⟨h1, h2, h3, h4⟩ := h
  unfold readInput serializeInput
  simp only [List.append_assoc]
  rw [readBytesN_append _ _ 32 h1]
  simp only [Option.bind_eq_bind, Option.some_bind]
  rw [readUInt32_leBytes _ h2]
  simp only [Option.some_bind]
  rw [readVarSlice_writeVarSlice _ h4]
  simp only [Option.some_bind]
  rw [readUInt32_leBytes _ h3]
  simp only [Option.some_bind]
  rfl

theorem readOutput_serializeOutput (o : Output) (h : WfOutput o) (r : List Nat) :
    readOutput (serializeOutput o ++ r) = some (o, r) := by
  obtain ⟨h1, h2⟩ := h
  unfold readOutput serializeOutput
  simp only [List.append_assoc]
  rw [readUInt64_leBytes _ h1]
  simp only [Option.bind_eq_bind, Option.some_bind]
  rw [readVarSlice_writeVarSlice _ h2]
  simp only [Option.some_bind]
  rfl

theorem readCount_flatten {α : Type} (rd : List Nat → Option (α × List Nat))
    (enc : α → List Nat) (l : List α)
    (h : ∀ a ∈ l, ∀ r2 : List Nat, rd (enc a ++ r2) = some (a, r2)) (r : List Nat) :
    readCount rd l.length ((l.map enc).flatten ++ r) = some (l, r) := by
  induction l generalizing r with
  | nil => simp [readCount]
  | cons a l ih =>
    rw [List.length_cons, List.map_cons, List.flatten_cons]
    simp only [List.append_assoc, readCount]
    rw [h a (List.mem_cons_self a l) _]
    simp only [Option.bind_eq_bind, Option.some_bind]
    rw [ih (fun a ha r2 => h a (List.mem_cons_of_mem _ ha) r2) r]
    simp only [Option.some_bind]
    rfl

theorem readTx_serializeTx (t : Transaction) (h : WfTx t) (r : List Nat) :
    readTx (serializeTx t ++ r) = some (t, r) := by
  obtain ⟨hv1, hv2, ht1, ht2, hlk, hil, hol, hins, houts⟩ := h
  unfold readTx serializeTx
  simp only [List.append_assoc]
  rw [readInt32_int32Bytes _ hv1 hv2]
  simp only [Option.bind_eq_bind, Option.some_bind]
  by_cases hver : t.version ≥ 2
  · rw [if_pos hver, if_pos hver, readUInt64_leBytes _ (ht1 hver)]
    simp only [Option.some_bind]
    rw [readVarInt_writeVarInt _ hil]
    simp only [Option.some_bind]
    rw [readCount_flatten readInput serializeInput t.ins
      (fun a ha r2 => readInput_serializeInput a (hins a ha) r2)]
    simp only [Option.some_bind]
    rw [readVarInt_writeVarInt _ hol]
    simp only [Option.some_bind]
    rw [readCount_flatten readOutput serializeOutput t.outs
      (fun a ha r2 => readOutput_serializeOutput a (houts a ha) r2)]
    simp only [Option.some_bind]
    rw [readUInt32_leBytes _ hlk]
    simp only [Option.some_bind]
    rfl
  · rw [if_neg hver, if_neg hver, readUInt32_leBytes _ (ht2 (by omega))]
    simp only [Option.some_bind]
    rw [readVarInt_writeVarInt _ hil]
    simp only [Option.some_bind]
    rw [readCount_flatten readInput serializeInput t.ins
      (fun a ha r2 => readInput_serializeInput a (hins a ha) r2)]
    simp only [Option.some_bind]
    rw [readVarInt_writeVarInt _ hol]
    simp only [Option.some_bind]
    rw [readCount_flatten readOutput serializeOutput t.outs
      (fun a ha r2 => readOutput_serializeOutput a (houts a ha) r2)]
    simp only [Option.some_bind]
    rw [readUInt32_leBytes _ hlk]
    simp only [Option.some_bind]
    rfl

theorem fromBuffer_serializeTx (t : Transaction) (h : WfTx t) :
    Transaction.fromBuffer (serializeTx t) false = .ok t := by
  unfold Transaction.fromBuffer
  have h2 := readTx_serializeTx t h []
  rw [List.append_nil] at h2
  rw [h2]
  rfl

theorem WfTx.hashLengths {t : Transaction} (h : WfTx t) :
    ∀ i ∈ t.ins, i.hash.length = 32 :=
  fun i hi => (h.2.2.2.2.2.2.2.1 i hi).1

theorem block_set_transactions_self (b : Block) (h : b.transactions = none) :
    { b with transactions := none } = b := by
  cases b
  simp_all

theorem readHeader_headerBytes (b : Block) (hv1 : -(2 ^ 31) ≤ b.version)
    (hv2 : b.version < 2 ^ 31) (hp : b.prevHash.length = 32)
    (hm : b.merkleRoot.length = 32) (hts : b.timestamp < 2 ^ 32)
    (hbits : b.bits < 2 ^ 32) (hn : b.nonce < 2 ^ 32) (r : List Nat) :
    readHeader (Block.headerBytes b ++ r) = some ({ b with transactions := none }, r) := by
  unfold readHeader Block.headerBytes
  simp only [List.append_assoc]
  rw [readInt32_int32Bytes _ hv1 hv2]
  simp only [Option.bind_eq_bind, Option.some_bind]
  rw [readBytesN_append _ _ 32 hp]
  simp only [Option.some_bind]
  rw [readBytesN_append _ _ 32 hm]
  simp only [Option.some_bind]
  rw [readUInt32_leBytes _ hts]
  simp only [Option.some_bind]
  rw [readUInt32_leBytes _ hbits]
  simp only [Option.some_bind]
  rw [readUInt32_leBytes _ hn]
  simp only [Option.some_bind]
  rfl

theorem headerBytes_length (b : Block) (hp : b.prevHash.length = 32)
    (hm : b.merkleRoot.length = 32) : (Block.headerBytes b).length = 80 := by
  simp [Block.headerBytes, int32Bytes_length, leBytes_length, hp, hm]

theorem encodingLength_pos (n : Nat) : 1 ≤ encodingLength n := by
  unfold encodingLength
  split
  · omega
  · split
    · omega
    · split <;> omega

theorem readBlockTxs_flatten (ts : List Transaction) (h : ∀ t ∈ ts, WfTx t)
    (r : List Nat) : readBlockTxs ts.length ((ts.map serializeTx).flatten ++ r) = some ts := by
  induction ts generalizing r with
  | nil => simp [readBlockTxs]
  | cons t ts ih =>
    rw [List.length_cons, List.map_cons, List.flatten_cons]
    simp only [List.append_assoc, readBlockTxs]
    rw [readTx_serializeTx t (h t (by simp)) _]
    dsimp only
    have hlen : (serializeTx t).length = Transaction.byteLength t :=
      serializeTx_length t (WfTx.hashLengths (h t (by simp)))
    rw [List.drop_left' hlen]
    rw [ih (fun a ha => h a (List.mem_cons_of_mem _ ha)) r]
    rfl

theorem blockFromBuffer_toBuffer (b : Block) (h : WfBlock b) :
    Block.fromBuffer (b.toBuffer false) = .ok b := by
  obtain ⟨hv1, hv2, hp, hm, hts, hbits, hn, htl, htw⟩ := h
  have hh80 : (Block.headerBytes b).length = 80 := headerBytes_length b hp hm
  match htx : b.transactions with
  | none =>
    have hto : b.toBuffer false = b.headerBytes := by simp [Block.toBuffer, htx]
    rw [hto]
    unfold Block.fromBuffer
    rw [if_neg (by omega)]
    have h2 := readHeader_headerBytes b hv1 hv2 hp hm hts hbits hn []
    rw [List.append_nil] at h2
    rw [h2]
    dsimp only
    rw [if_pos hh80, block_set_transactions_self b htx]
  | some ts =>
    rw [htx] at htl htw
    simp only [Option.getD_some] at htl htw
    have hto : b.toBuffer false
        = b.headerBytes ++ (writeVarInt ts.length ++ (ts.map serializeTx).flatten) := by
      simp [Block.toBuffer, htx]
    rw [hto]
    unfold Block.fromBuffer
    have hwl : 1 ≤ (writeVarInt ts.length).length := by
      rw [writeVarInt_length]
      exact encodingLength_pos _
    have hlen : (b.headerBytes ++ (writeVarInt ts.length ++ (ts.map serializeTx).flatten)).length
        = 80 + ((writeVarInt ts.length).length + ((ts.map serializeTx).flatten).length) := by
      simp [hh80]
    rw [if_neg (by omega)]
    rw [readHeader_headerBytes b hv1 hv2 hp hm hts hbits hn _]
    dsimp only
    rw [if_neg (by omega)]
    rw [readVarInt_writeVarInt _ htl]
    dsimp only
    have h3 := readBlockTxs_flatten ts htw []
    rw [List.append_nil] at h3
    rw [h3]
    dsimp only
    cases b
    simp_all

theorem toInt32_range (u : Nat) (h : u < 2 ^ 32) :
    -(2 ^ 31) ≤ toInt32 u ∧ toInt32 u < 2 ^ 31 := by
  unfold toInt32
  split <;> omega

theorem header_bytes_reconstruct (bs : List Nat) (h80 : bs.length = 80)
    (hb : ∀ d ∈ bs, d < 256) :
    ∃ blk, Block.fromBuffer bs = .ok blk ∧ blk.toBuffer true = bs := by
  have hfour : ∀ k : Nat, k + 4 ≤ 80 → ((bs.drop k).take 4).length = 4 := by
    intro k hk
    simp [List.length_take, List.length_drop, h80]
    omega
  have hsub : ∀ k n : Nat, ∀ d ∈ (bs.drop k).take n, d < 256 := fun k n d hd =>
    hb d (List.mem_of_mem_drop (List.mem_of_mem_take hd))
  have hsub0 : ∀ n : Nat, ∀ d ∈ bs.take n, d < 256 := fun n d hd =>
    hb d (List.mem_of_mem_take hd)
  have htk4 : (bs.take 4).length = 4 := by simp [List.length_take, h80]
  have hu1 : fromLE (bs.take 4) < 2 ^ 32 := by
    have := fromLE_lt (bs.take 4) (hsub0 4)
    rw [htk4] at this
    norm_num at this ⊢
    omega
  have hc4 : ∀ k : Nat, k + 4 ≤ 80 → fromLE ((bs.drop k).take 4) < 2 ^ 32 := by
    intro k hk
    have h1 := fromLE_lt ((bs.drop k).take 4) (hsub k 4)
    rw [hfour k hk] at h1
    norm_num at h1 ⊢
    omega
  set blk : Block := ⟨toInt32 (fromLE (bs.take 4)), (bs.drop 4).take 32, (bs.drop 36).take 32,
    fromLE ((bs.drop 68).take 4), fromLE ((bs.drop 72).take 4),
    fromLE ((bs.drop 76).take 4), none⟩ with hblk
  have hre : Block.headerBytes blk = bs := by
    have st1 : (bs.drop 76).take 4 = bs.drop 76 :=
      List.take_of_length_le (by simp [List.length_drop, h80])
    have hdd : ∀ m n : Nat, (bs.drop m).drop n = bs.drop (m + n) := fun m n => by
      rw [List.drop_drop, Nat.add_comm]
    have st2 : (bs.drop 72).take 4 ++ bs.drop 76 = bs.drop 72 := by
      have h1 : (bs.drop 72).drop 4 = bs.drop 76 := by rw [hdd]
      rw [← h1, List.take_append_drop]
    have st3 : (bs.drop 68).take 4 ++ bs.drop 72 = bs.drop 68 := by
      have h1 : (bs.drop 68).drop 4 = bs.drop 72 := by rw [hdd]
      rw [← h1, List.take_append_drop]
    have st4 : (bs.drop 36).take 32 ++ bs.drop 68 = bs.drop 36 := by
      have h1 : (bs.drop 36).drop 32 = bs.drop 68 := by rw [hdd]
      rw [← h1, List.take_append_drop]
    have st5 : (bs.drop 4).take 32 ++ bs.drop 36 = bs.drop 4 := by
      have h1 : (bs.drop 4).drop 32 = bs.drop 36 := by rw [hdd]
      rw [← h1, List.take_append_drop]
    rw [hblk]
    unfold Block.headerBytes
    simp only
    rw [int32Bytes_toInt32 _ hu1, leBytes_fromLE (bs.take 4) 4 htk4 (hsub0 4),
      leBytes_fromLE _ 4 (hfour 68 (by norm_num)) (hsub 68 4),
      leBytes_fromLE _ 4 (hfour 72 (by norm_num)) (hsub 72 4),
      leBytes_fromLE _ 4 (hfour 76 (by norm_num)) (hsub 76 4)]
    simp only [List.append_assoc]
    rw [st1, st2, st3, st4, st5, List.take_append_drop]
  have hlp : blk.prevHash.length = 32 := by
    rw [hblk]
    simp [List.length_take, List.length_drop, h80]
  have hlm : blk.merkleRoot.length = 32 := by
    rw [hblk]
    simp [List.length_take, List.length_drop, h80]
  have hrange := toInt32_range _ hu1
  refine ⟨blk, ?_, ?_⟩
  · rw [← hre]
    unfold Block.fromBuffer
    have hl80 : (Block.headerBytes blk).length = 80 := by rw [hre]; exact h80
    rw [if_neg (by omega)]
    have h2 := readHeader_headerBytes blk hrange.1 hrange.2 hlp hlm
      (hc4 68 (by norm_num)) (hc4 72 (by norm_num)) (hc4 76 (by norm_num)) []
    rw [List.append_nil] at h2
    rw [h2]
    dsimp only
    rw [if_pos hl80, block_set_transactions_self blk (by rw [hblk])]
  · rw [show blk.toBuffer true = Block.headerBytes blk from rfl]
    exact hre

/-- C2 counterexample: the CompactSize input count of a transaction may use a
valid but non-minimal encoding (`fd 00 00` for zero); the bytes parse
strictly, but re-serializing emits the minimal form, so the round-trip does
not reproduce the original bytes. -/
theorem c2_counterexample :
    Transaction.fromBuffer [1, 0, 0, 0, 0, 0, 0, 0, 253, 0, 0, 0, 0, 0, 0, 0] false
      = .ok ⟨1, 0, 0, [], []⟩ ∧
    serializeTx ⟨1, 0, 0, [], []⟩ ≠ [1, 0, 0, 0, 0, 0, 0, 0, 253, 0, 0, 0, 0, 0, 0, 0] := by
  constructor
  · rfl
  · decide

/-- C2 (amended): serializing the parse result reproduces the original bytes
for canonical encodings — transaction bytes that are the serialization of a
well-formed transaction (equivalently, whose CompactSize fields are minimal);
any 80-byte header reproduces byte-exactly; and full-block bytes that are the
serialization of a well-formed block reproduce byte-exactly.  (Bytes with a
non-minimal CompactSize parse but re-serialize shorter — see the
counterexample.) -/
theorem c2_roundtrip (bs : List Nat) :
    ((∃ t, WfTx t ∧ serializeTx t = bs) →
      ∃ t, Transaction.fromBuffer bs false = .ok t ∧ serializeTx t = bs) ∧
    (bs.length = 80 → (∀ d ∈ bs, d < 256) →
      ∃ blk, Block.fromBuffer bs = .ok blk ∧ blk.toBuffer true = bs) ∧
    ((∃ b, WfBlock b ∧ b.toBuffer false = bs) →
      ∃ b, Block.fromBuffer bs = .ok b ∧ b.toBuffer false = bs) := by
  refine ⟨?_, ?_, ?_⟩
  · rintro ⟨t, hw, rfl⟩
    exact ⟨t, fromBuffer_serializeTx t hw, rfl⟩
  · exact fun h80 hb => header_bytes_reconstruct bs h80 hb
  · rintro ⟨b, hw, rfl⟩
    exact ⟨b, blockFromBuffer_toBuffer b hw, rfl⟩

/-- Witness for the amended C2 at a concrete transaction, a concrete 80-byte
header, and a concrete one-transaction-less full block. -/
theorem c2_witness :
    (∃ t, Transaction.fromBuffer (serializeTx ⟨1, 0, 0, [], []⟩) false = .ok t ∧
      serializeTx t = serializeTx ⟨1, 0, 0, [], []⟩) ∧
    (∃ blk, Block.fromBuffer (List.replicate 80 0) = .ok blk ∧
      blk.toBuffer true = List.replicate 80 0) ∧
    (∃ b, Block.fromBuffer
        (Block.toBuffer ⟨1, List.replicate 32 0, List.replicate 32 0, 0, 0, 0, some []⟩ false)
        = .ok b ∧
      b.toBuffer false
        = Block.toBuffer ⟨1, List.replicate 32 0, List.replicate 32 0, 0, 0, 0, some []⟩ false) :=
  ⟨(c2_roundtrip _).1 ⟨⟨1, 0, 0, [], []⟩, by decide, rfl⟩,
   (c2_roundtrip _).2.1 (by decide) (by decide),
   (c2_roundtrip _).2.2 ⟨_, by decide, rfl⟩⟩

/-! ### Merkle root (C4) -/

theorem merkleLevel_length (h256 : List Nat → List Nat) : ∀ hs : List (List Nat),
    (merkleLevel h256 hs).length = (hs.length + 1) / 2
  | [] => rfl
  | [_] => by simp [merkleLevel]
  | _ :: _ :: rest => by
    simp only [merkleLevel, List.length_cons, merkleLevel_length h256 rest]
    omega

theorem fastMerkleRootAux_succ (h256 : List Nat → List Nat) (f : Nat) :
    ∀ hs : List (List Nat), hs.length ≤ f + 1 →
      fastMerkleRootAux h256 (f + 1) hs = fastMerkleRootAux h256 f hs := by
  induction f with
  | zero =>
    intro hs hlen
    have hred : fastMerkleRootAux h256 1 hs
        = if hs.length ≤ 1 then hs else fastMerkleRootAux h256 0 (merkleLevel h256 hs) := rfl
    rw [hred, if_pos hlen]
    rfl
  | succ g ih =>
    intro hs hlen
    have hred1 : fastMerkleRootAux h256 (g + 1 + 1) hs
        = if hs.length ≤ 1 then hs
          else fastMerkleRootAux h256 (g + 1) (merkleLevel h256 hs) := rfl
    have hred2 : fastMerkleRootAux h256 (g + 1) hs
        = if hs.length ≤ 1 then hs
          else fastMerkleRootAux h256 g (merkleLevel h256 hs) := rfl
    by_cases hle : hs.length ≤ 1
    · rw [hred1, hred2, if_pos hle, if_pos hle]
    · rw [hred1, hred2, if_neg hle, if_neg hle]
      exact ih (merkleLevel h256 hs) (by rw [merkleLevel_length]; omega)

theorem fastMerkleRootAux_add (h256 : List Nat → List Nat) (f k : Nat) :
    ∀ hs : List (List Nat), hs.length ≤ f + 1 →
      fastMerkleRootAux h256 (f + k) hs = fastMerkleRootAux h256 f hs := by
  induction k with
  | zero => intro hs _; rfl
  | succ k ih =>
    intro hs h
    rw [show f + (k + 1) = (f + k) + 1 by omega]
    rw [fastMerkleRootAux_succ h256 (f + k) hs (by omega)]
    exact ih hs h

/-- One reduction step of the merkle computation: with at least two nodes,
the root of a level equals the root of the next level. -/
theorem fastMerkleRoot_step (h256 : List Nat → List Nat) (hs : List (List Nat))
    (h2 : 2 ≤ hs.length) :
    fastMerkleRoot h256 hs = fastMerkleRoot h256 (merkleLevel h256 hs) := by
  unfold fastMerkleRoot
  have hlev : (merkleLevel h256 hs).length = (hs.length + 1) / 2 := merkleLevel_length h256 hs
  have hred : fastMerkleRootAux h256 ((hs.length - 1) + 1) hs
      = if hs.length ≤ 1 then hs
        else fastMerkleRootAux h256 (hs.length - 1) (merkleLevel h256 hs) := rfl
  rw [show hs.length = (hs.length - 1) + 1 by omega, hred, if_neg (by omega)]
  have h1 : hs.length - 1 = ((hs.length + 1) / 2 - 1) + (hs.length - 1 - ((hs.length + 1) / 2 - 1)) := by
    omega
  rw [h1, fastMerkleRootAux_add h256 _ _ (merkleLevel h256 hs) (by omega)]
  rw [show (merkleLevel h256 hs).length = (((hs.length + 1) / 2 - 1) + 1) by omega]
  rw [fastMerkleRootAux_succ h256 _ (merkleLevel h256 hs) (by omega)]

/-- C4: `calculateMerkleRoot` fails with the distinct zero-transactions error
exactly on the empty list; on a nonempty list it reduces the list of
identifier hashes level by level (pairing adjacent nodes, double-hashing each
pair's concatenation, duplicating the last node of an odd level); in
particular the root of `[a]` is `a`'s identifier hash, the root of `[a, b]`
is the double-hash of the two identifier hashes concatenated, and a
three-element list duplicates its last leaf. -/
theorem c4_merkleRoot (h256 : List Nat → List Nat) :
    (∀ ts : List Transaction,
      (calculateMerkleRoot h256 ts
          = .error "Cannot compute merkle root for zero transactions" ↔ ts = []) ∧
      (2 ≤ ts.length → calculateMerkleRoot h256 ts
          = .ok (fastMerkleRoot h256
              (merkleLevel h256 (ts.map (Transaction.getHash h256)))))) ∧
    (∀ a, calculateMerkleRoot h256 [a] = .ok (Transaction.getHash h256 a)) ∧
    (∀ a b, calculateMerkleRoot h256 [a, b]
        = .ok (h256 (Transaction.getHash h256 a ++ Transaction.getHash h256 b))) ∧
    (∀ a b c, calculateMerkleRoot h256 [a, b, c]
        = .ok (h256 (h256 (Transaction.getHash h256 a ++ Transaction.getHash h256 b) ++
            h256 (Transaction.getHash h256 c ++ Transaction.getHash h256 c)))) := by
  refine ⟨fun ts => ⟨?_, ?_⟩, fun a => rfl, fun a b => rfl, fun a b c => rfl⟩
  · cases ts with
    | nil => simp [calculateMerkleRoot]
    | cons t ts => simp [calculateMerkleRoot]
  · intro hlen
    cases ts with
    | nil => simp at hlen
    | cons t ts =>
      show Except.ok _ = Except.ok _
      congr 1
      apply fastMerkleRoot_step
      simp only [List.length_map]
      exact hlen

/-- Witness for C4 at concrete transactions and a concrete stand-in hash. -/
theorem c4_witness :
    (calculateMerkleRoot (fun _ => [7]) ([] : List Transaction)
        = .error "Cannot compute merkle root for zero transactions" ↔
      ([] : List Transaction) = []) ∧
    (calculateMerkleRoot (fun _ => [7]) [⟨1, 0, 0, [], []⟩]
        = .ok (Transaction.getHash (fun _ => [7]) ⟨1, 0, 0, [], []⟩)) ∧
    (calculateMerkleRoot (fun _ => [7]) [⟨1, 0, 0, [], []⟩, ⟨1, 0, 0, [], []⟩]
        = .ok (fastMerkleRoot (fun _ => [7])
            (merkleLevel (fun _ => [7])
              ([⟨1, 0, 0, [], []⟩, ⟨1, 0, 0, [], []⟩].map
                (Transaction.getHash fun _ => [7]))))) :=
  ⟨((c4_merkleRoot fun _ => [7]).1 []).1,
   (c4_merkleRoot fun _ => [7]).2.1 ⟨1, 0, 0, [], []⟩,
   ((c4_merkleRoot fun _ => [7]).1 [⟨1, 0, 0, [], []⟩, ⟨1, 0, 0, [], []⟩]).2 (by decide)⟩

/-! ### Big-endian comparison and the compact target (C5) -/

theorem beNat_foldl (ds : List Nat) : ∀ acc : Nat,
    ds.foldl (fun a d => a * 256 + d) acc = acc * 256 ^ ds.length + beNat ds := by
  induction ds with
  | nil => intro acc; simp [beNat]
  | cons d ds ih =>
    intro acc
    show (d :: ds).foldl (fun a d => a * 256 + d) acc = acc * 256 ^ (d :: ds).length + beNat (d :: ds)
    rw [List.foldl_cons]
    rw [ih (acc * 256 + d)]
    have hc : beNat (d :: ds) = d * 256 ^ ds.length + beNat ds := by
      show (d :: ds).foldl (fun a d => a * 256 + d) 0 = d * 256 ^ ds.length + beNat ds
      rw [List.foldl_cons, ih (0 * 256 + d)]
      ring_nf
    rw [hc, List.length_cons]
    ring

theorem beNat_cons (d : Nat) (ds : List Nat) :
    beNat (d :: ds) = d * 256 ^ ds.length + beNat ds := by
  show (d :: ds).foldl (fun a d => a * 256 + d) 0 = d * 256 ^ ds.length + beNat ds
  rw [List.foldl_cons, beNat_foldl]
  ring_nf

theorem beNat_lt (ds : List Nat) (hb : ∀ d ∈ ds, d < 256) :
    beNat ds < 256 ^ ds.length := by
  induction ds with
  | nil => simp [beNat]
  | cons d ds ih =>
    rw [beNat_cons, List.length_cons]
    have h1 : d < 256 := hb d (by simp)
    have h2 : beNat ds < 256 ^ ds.length := ih fun x hx => hb x (List.mem_cons_of_mem d hx)
    calc d * 256 ^ ds.length + beNat ds
        < d * 256 ^ ds.length + 256 ^ ds.length := by omega
    _ = (d + 1) * 256 ^ ds.length := by ring
    _ ≤ 256 * 256 ^ ds.length := Nat.mul_le_mul_right _ (by omega)
    _ = 256 ^ (ds.length + 1) := by ring

theorem compareBytes_le_iff (as bs : List Nat) (hlen : as.length = bs.length)
    (ha : ∀ d ∈ as, d < 256) (hb : ∀ d ∈ bs, d < 256) :
    compareBytes as bs ≤ 0 ↔ beNat as ≤ beNat bs := by
  induction as generalizing bs with
  | nil =>
    cases bs with
    | nil => simp [compareBytes]
    | cons b bs => simp at hlen
  | cons a as ih =>
    cases bs with
    | nil => simp at hlen
    | cons b bs =>
      have hlen2 : as.length = bs.length := by simpa using hlen
      have ha1 : a < 256 := ha a (by simp)
      have hb1 : b < 256 := hb b (by simp)
      have ha2 : ∀ d ∈ as, d < 256 := fun d hd => ha d (List.mem_cons_of_mem a hd)
      have hb2 : ∀ d ∈ bs, d < 256 := fun d hd => hb d (List.mem_cons_of_mem b hd)
      have hlta : beNat as < 256 ^ as.length := beNat_lt as ha2
      have hltb : beNat bs < 256 ^ bs.length := beNat_lt bs hb2
      rw [compareBytes, beNat_cons, beNat_cons, hlen2]
      by_cases hab : a < b
      · rw [if_pos hab]
        have hle : a * 256 ^ bs.length + beNat as < b * 256 ^ bs.length + beNat bs := by
          calc a * 256 ^ bs.length + beNat as
              < a * 256 ^ bs.length + 256 ^ bs.length := by rw [hlen2] at hlta; omega
          _ = (a + 1) * 256 ^ bs.length := by ring
          _ ≤ b * 256 ^ bs.length := Nat.mul_le_mul_right _ (by omega)
          _ ≤ b * 256 ^ bs.length + beNat bs := by omega
        simp [Nat.le_of_lt hle]
      · rw [if_neg hab]
        by_cases hba : b < a
        · rw [if_pos hba]
          have hgt : b * 256 ^ bs.length + beNat bs < a * 256 ^ bs.length + beNat as := by
            calc b * 256 ^ bs.length + beNat bs
                < b * 256 ^ bs.length + 256 ^ bs.length := by omega
            _ = (b + 1) * 256 ^ bs.length := by ring
            _ ≤ a * 256 ^ bs.length := Nat.mul_le_mul_right _ (by omega)
            _ ≤ a * 256 ^ bs.length + beNat as := by omega
          constructor
          · intro hcon
            norm_num at hcon
          · intro hcon
            omega
        · rw [if_neg hba]
          have hex : a = b := by omega
          subst hex
          rw [ih bs hlen2 ha2 hb2]
          constructor
          · intro hle
            omega
          · intro hle
            omega

theorem calculateTarget_eq (bits : Nat) (hb : bits < 2 ^ 32)
    (h3 : 3 ≤ bits / 2 ^ 24) (h32 : bits / 2 ^ 24 ≤ 32) :
    calculateTarget bits = some (List.replicate (32 - bits / 2 ^ 24) 0 ++
      be3 (bits % 2 ^ 23) ++ List.replicate (bits / 2 ^ 24 - 3) 0) := by
  unfold calculateTarget
  have htop : bits / 2 ^ 24 % 256 = bits / 2 ^ 24 := Nat.mod_eq_of_lt (by omega)
  have hlt128 : bits / 2 ^ 24 < 128 := by omega
  simp only [htop, hlt128, if_true]
  rw [if_pos (by constructor <;> omega)]
  have hoff : ((29 : Int) - (((bits / 2 ^ 24 : Nat) : Int) - 3)).toNat
      = 32 - bits / 2 ^ 24 := by omega
  rw [hoff]
  have hrest : 29 - (32 - bits / 2 ^ 24) = bits / 2 ^ 24 - 3 := by omega
  rw [hrest]

/-- C5: for every block whose compact `bits` has a top byte (exponent)
between 3 and 32 — the range in which the 3-byte mantissa write fits the
32-byte target buffer, and in which the claim's own offset formula is
meaningful — the target is the all-zero 32-byte buffer with the low 23 bits
of `bits` written big-endian at offset `29 - (exponent - 3)`, and
`checkProofOfWork()` returns true exactly when the block's hash,
byte-reversed and read as a big-endian unsigned integer, is at most the
target read the same way. -/
theorem c5_checkProofOfWork (h256 : List Nat → List Nat) (b : Block)
    (hb : b.bits < 2 ^ 32) (h3 : 3 ≤ b.bits / 2 ^ 24) (h32 : b.bits / 2 ^ 24 ≤ 32)
    (hh : (b.getHash h256).length = 32) (hhb : ∀ d ∈ b.getHash h256, d < 256) :
    calculateTarget b.bits = some (List.replicate (32 - b.bits / 2 ^ 24) 0 ++
      be3 (b.bits % 2 ^ 23) ++ List.replicate (b.bits / 2 ^ 24 - 3) 0) ∧
    (b.checkProofOfWork h256 = some true ↔
      beNat (b.getHash h256).reverse ≤
        beNat (List.replicate (32 - b.bits / 2 ^ 24) 0 ++
          be3 (b.bits % 2 ^ 23) ++ List.replicate (b.bits / 2 ^ 24 - 3) 0)) := by
  have htg := calculateTarget_eq b.bits hb h3 h32
  refine ⟨htg, ?_⟩
  unfold Block.checkProofOfWork
  rw [htg]
  simp only [Option.map_some', Option.some_inj, decide_eq_true_eq]
  apply compareBytes_le_iff
  · rw [List.length_reverse, hh]
    simp [List.length_append, List.length_replicate, be3]
    omega
  · intro d hd
    rw [List.mem_reverse] at hd
    exact hhb d hd
  · intro d hd
    simp only [List.append_assoc, List.mem_append, List.mem_replicate] at hd
    rcases hd with h1 | h2 | h3
    · omega
    · simp only [be3, List.mem_cons, List.mem_singleton] at h2
      rcases h2 with rfl | rfl | rfl | hf
      · exact Nat.mod_lt _ (by norm_num)
      · exact Nat.mod_lt _ (by norm_num)
      · exact Nat.mod_lt _ (by norm_num)
      · simp at hf
    · omega

/-- Witness for C5 at a concrete block with `bits = 0x1d00ffff` and a
concrete stand-in hash function. -/
theorem c5_witness :
    calculateTarget (Block.bits ⟨1, List.replicate 32 0, List.replicate 32 0, 0, 486604799, 0, none⟩)
      = some (List.replicate (32 - 486604799 / 2 ^ 24) 0 ++
        be3 (486604799 % 2 ^ 23) ++ List.replicate (486604799 / 2 ^ 24 - 3) 0) ∧
    (Block.checkProofOfWork (fun _ => List.replicate 32 0)
        ⟨1, List.replicate 32 0, List.replicate 32 0, 0, 486604799, 0, none⟩ = some true ↔
      beNat (Block.getHash (fun _ => List.replicate 32 0)
          ⟨1, List.replicate 32 0, List.replicate 32 0, 0, 486604799, 0, none⟩).reverse ≤
        beNat (List.replicate (32 - 486604799 / 2 ^ 24) 0 ++
          be3 (486604799 % 2 ^ 23) ++ List.replicate (486604799 / 2 ^ 24 - 3) 0)) :=
  c5_checkProofOfWork (fun _ => List.replicate 32 0) _
    (by decide) (by decide) (by decide) (by decide) (by decide)

/-! ### Block hash depends on the header only (C10) -/

/-- C10: `getHash()` is the double-hash of the 80-byte header serialization
only, so two blocks with identical header fields share `getHash()` and
`getId()` no matter which transactions (if any) are attached. -/
theorem c10_header_only_hash (h256 : List Nat → List Nat) (b1 b2 : Block)
    (hv : b1.version = b2.version) (hp : b1.prevHash = b2.prevHash)
    (hm : b1.merkleRoot = b2.merkleRoot) (ht : b1.timestamp = b2.timestamp)
    (hbits : b1.bits = b2.bits) (hn : b1.nonce = b2.nonce) :
    Block.getHash h256 b1 = h256 (Block.headerBytes b1) ∧
    Block.getHash h256 b1 = Block.getHash h256 b2 ∧
    Block.getId h256 b1 = Block.getId h256 b2 := by
  have hhb : Block.headerBytes b1 = Block.headerBytes b2 := by
    unfold Block.headerBytes
    rw [hv, hp, hm, ht, hbits, hn]
  have h1 : Block.getHash h256 b1 = h256 (Block.headerBytes b1) := rfl
  have h2 : Block.getHash h256 b2 = h256 (Block.headerBytes b2) := rfl
  have heq : Block.getHash h256 b1 = Block.getHash h256 b2 := by
    rw [h1, h2, hhb]
  refine ⟨h1, heq, ?_⟩
  unfold Block.getId
  rw [heq]

/-- Witness for C10: same header, one block bare and one with a transaction
attached. -/
theorem c10_witness :
    Block.getHash (fun bs => bs)
        ⟨1, List.replicate 32 0, List.replicate 32 0, 7, 8, 9, none⟩
      = (fun bs => bs)
        (Block.headerBytes ⟨1, List.replicate 32 0, List.replicate 32 0, 7, 8, 9, none⟩) ∧
    Block.getHash (fun bs => bs)
        ⟨1, List.replicate 32 0, List.replicate 32 0, 7, 8, 9, none⟩
      = Block.getHash (fun bs => bs)
        ⟨1, List.replicate 32 0, List.replicate 32 0, 7, 8, 9, some [⟨1, 0, 0, [], []⟩]⟩ ∧
    Block.getId (fun bs => bs)
        ⟨1, List.replicate 32 0, List.replicate 32 0, 7, 8, 9, none⟩
      = Block.getId (fun bs => bs)
        ⟨1, List.replicate 32 0, List.replicate 32 0, 7, 8, 9, some [⟨1, 0, 0, [], []⟩]⟩ :=
  c10_header_only_hash (fun bs => bs) _ _ rfl rfl rfl rfl rfl rfl

/-! ### Builder mutation legality (C7) -/

/-- C7 (the `TransactionBuilder` bodies are modelled from the spec):
`addInput` succeeds exactly when every already-applied signature's hashType
carries the "any one can pay" bit — equivalently it fails exactly when some
applied signature lacks it; `addOutput` succeeds exactly when no applied
signature has `hashType & 0x1f = ALL` or `= SINGLE` on an input index at or
beyond the new output's position (so `NONE`-type signatures never block it);
each rejection produces the invalidation error and no new state, and each
success only appends to the existing state. -/
theorem c7_builder_legality (b : TransactionBuilder) (hash : List Nat) (index : Nat)
    (seq : Option Nat) (scr : Option (List Nat)) (lockScript : List Nat) (value : Nat) :
    ((∃ b2, b.addInput hash index seq scr = .ok b2) ↔
      ∀ i ∈ b.inputs, ∀ ht ∈ i.sigHashTypes, ht.testBit 7 = true) ∧
    ((∃ b2, b.addOutput lockScript value = .ok b2) ↔
      ∀ p ∈ b.inputs.enum, ∀ ht ∈ p.2.sigHashTypes,
        ht % 32 ≠ 1 ∧ (ht % 32 = 3 → p.1 < b.tx.outs.length)) ∧
    ((∀ i ∈ b.inputs, ∀ ht ∈ i.sigHashTypes, ht % 32 = 2) →
      ∃ b2, b.addOutput lockScript value = .ok b2) ∧
    (b.canModifyInputs = false →
      b.addInput hash index seq scr = .error "No, this would invalidate signatures") ∧
    (b.canModifyOutputs = false →
      b.addOutput lockScript value = .error "No, this would invalidate signatures") ∧
    (∀ b2, b.addInput hash index seq scr = .ok b2 →
      b2 = { tx := { b.tx with
              ins := b.tx.ins ++ [⟨hash, index, scr.getD [], seq.getD 4294967295⟩] },
             inputs := b.inputs ++ [⟨[]⟩] }) ∧
    (∀ b2, b.addOutput lockScript value = .ok b2 →
      b2 = { b with tx := { b.tx with outs := b.tx.outs ++ [⟨lockScript, value⟩] } }) := by
  have hci : b.canModifyInputs = true ↔
      ∀ i ∈ b.inputs, ∀ ht ∈ i.sigHashTypes, ht.testBit 7 = true := by
    simp [TransactionBuilder.canModifyInputs, List.all_eq_true]
  have hco : b.canModifyOutputs = true ↔
      ∀ p ∈ b.inputs.enum, ∀ ht ∈ p.2.sigHashTypes,
        ht % 32 ≠ 1 ∧ (ht % 32 = 3 → p.1 < b.tx.outs.length) := by
    simp only [TransactionBuilder.canModifyOutputs, List.all_eq_true, Bool.and_eq_true,
      Bool.or_eq_true, bne_iff_ne, ne_eq, decide_eq_true_eq]
    constructor
    · intro h p hp ht hht
      obtain ⟨h1, h2⟩ := h p hp ht hht
      exact ⟨h1, fun h3 => by rcases h2 with h2 | h2 <;> omega⟩
    · intro h p hp ht hht
      obtain ⟨h1, h2⟩ := h p hp ht hht
      refine ⟨h1, ?_⟩
      by_cases h3 : ht % 32 = 3
      · exact Or.inr (h2 h3)
      · exact Or.inl h3
  refine ⟨?_, ?_, ?_, ?_, ?_, ?_, ?_⟩
  · rw [← hci]
    unfold TransactionBuilder.addInput
    constructor
    · rintro ⟨b2, hb2⟩
      by_contra hcm
      rw [if_neg (by simpa using hcm)] at hb2
      exact absurd hb2 (by simp)
    · intro hcm
      rw [if_pos hcm]
      exact ⟨_, rfl⟩
  · rw [← hco]
    unfold TransactionBuilder.addOutput
    constructor
    · rintro ⟨b2, hb2⟩
      by_contra hcm
      rw [if_neg (by simpa using hcm)] at hb2
      exact absurd hb2 (by simp)
    · intro hcm
      rw [if_pos hcm]
      exact ⟨_, rfl⟩
  · intro hnone
    unfold TransactionBuilder.addOutput
    rw [if_pos (hco.2 ?_)]
    · exact ⟨_, rfl⟩
    · intro p hp ht hht
      have h2 := hnone p.2 (List.snd_mem_of_mem_enum hp) ht hht
      omega
  · intro hcm
    unfold TransactionBuilder.addInput
    rw [if_neg (by simp [hcm])]
  · intro hcm
    unfold TransactionBuilder.addOutput
    rw [if_neg (by simp [hcm])]
  · intro b2 hb2
    unfold TransactionBuilder.addInput at hb2
    by_cases hcm : b.canModifyInputs
    · rw [if_pos hcm] at hb2
      exact (Except.ok.inj hb2).symm
    · rw [if_neg hcm] at hb2
      exact absurd hb2 (by simp)
  · intro b2 hb2
    unfold TransactionBuilder.addOutput at hb2
    by_cases hcm : b.canModifyOutputs
    · rw [if_pos hcm] at hb2
      exact (Except.ok.inj hb2).symm
    · rw [if_neg hcm] at hb2
      exact absurd hb2 (by simp)

/-- Witness for C7 at a concrete builder carrying one applied signature with
hashType `0x81` (`ALL` with "any one can pay"): adding an input succeeds,
adding an output is rejected with the builder state untouched. -/
theorem c7_witness :
    (∃ b2, TransactionBuilder.addInput ⟨⟨1, 0, 0, [], []⟩, [⟨[129]⟩]⟩
        (List.replicate 32 0) 0 none none = .ok b2) ∧
    TransactionBuilder.addOutput ⟨⟨1, 0, 0, [], []⟩, [⟨[129]⟩]⟩ [81] 5
      = .error "No, this would invalidate signatures" :=
  ⟨(c7_builder_legality ⟨⟨1, 0, 0, [], []⟩, [⟨[129]⟩]⟩
      (List.replicate 32 0) 0 none none [81] 5).1.mpr (by decide),
   (c7_builder_legality ⟨⟨1, 0, 0, [], []⟩, [⟨[129]⟩]⟩
      (List.replicate 32 0) 0 none none [81] 5).2.2.2.2.1 (by decide)⟩

/-! ### Heap lemmas for the signature-hash computation (C1, C9) -/

theorem consRange_length : ∀ n k : Nat, (consRange n k).length = k
  | _, 0 => rfl
  | n, k + 1 => by simp [consRange, consRange_length (n + 1) k]

theorem mem_consRange : ∀ n k r : Nat, r ∈ consRange n k ↔ n ≤ r ∧ r < n + k
  | n, 0, r => by simp [consRange]
  | n, k + 1, r => by
    simp only [consRange, List.mem_cons, mem_consRange (n + 1) k r]
    omega

theorem consRange_getD : ∀ k n j : Nat, j < k → (consRange n k).getD j 0 = n + j
  | k + 1, n, 0, _ => by simp [consRange]
  | k + 1, n, j + 1, h => by
    show (consRange (n + 1) k).getD j 0 = n + (j + 1)
    rw [consRange_getD k (n + 1) j (by omega)]
    omega

theorem heapGet_set_ne (h : Heap) (r r2 : Nat) (o : Input) (hne : r ≠ r2) :
    heapGet (h.set r o) r2 = heapGet h r2 := by
  unfold heapGet
  rw [List.getD_eq_getElem?_getD, List.getD_eq_getElem?_getD, List.getElem?_set_ne hne]

theorem heapGet_set_self (h : Heap) (r : Nat) (o : Input) (hr : r < h.length) :
    heapGet (h.set r o) r = o := by
  unfold heapGet
  rw [List.getD_eq_getElem?_getD, List.getElem?_set_eq hr]
  rfl

theorem updateFrom_length (f : Nat → Input → Input) (rs : List Nat) : ∀ (h : Heap) (j : Nat),
    (updateFrom f h j rs).length = h.length := by
  induction rs with
  | nil => intro h j; rfl
  | cons r rs ih =>
    intro h j
    show (updateFrom f (h.set r (f j (heapGet h r))) (j + 1) rs).length = h.length
    rw [ih, List.length_set]

theorem heapGet_updateFrom_notMem (f : Nat → Input → Input) (rs : List Nat) :
    ∀ (h : Heap) (j r : Nat), r ∉ rs → heapGet (updateFrom f h j rs) r = heapGet h r := by
  induction rs with
  | nil => intro h j r _; rfl
  | cons s rs ih =>
    intro h j r hr
    show heapGet (updateFrom f (h.set s (f j (heapGet h s))) (j + 1) rs) r = heapGet h r
    rw [ih _ _ _ fun hm => hr (List.mem_cons_of_mem s hm)]
    exact heapGet_set_ne h s r _ fun he => hr (he ▸ List.mem_cons_self s rs)

theorem heapGet_updateFrom_consRange (f : Nat → Input → Input) :
    ∀ (k n j0 i : Nat) (h : Heap), i < k → n + k ≤ h.length →
      heapGet (updateFrom f h j0 (consRange n k)) (n + i)
        = f (j0 + i) (heapGet h (n + i)) := by
  intro k
  induction k with
  | zero => intro n j0 i h hik; omega
  | succ k ih =>
    intro n j0 i h hik hlen
    show heapGet (updateFrom f (h.set n (f j0 (heapGet h n))) (j0 + 1)
      (consRange (n + 1) k)) (n + i) = f (j0 + i) (heapGet h (n + i))
    cases i with
    | zero =>
      rw [heapGet_updateFrom_notMem f _ _ _ _ (by rw [mem_consRange]; omega)]
      rw [Nat.add_zero, Nat.add_zero]
      exact heapGet_set_self h n _ (by omega)
    | succ i =>
      have h2 : n + (i + 1) = (n + 1) + i := by omega
      rw [h2, ih (n + 1) (j0 + 1) i _ (by omega) (by rw [List.length_set]; omega)]
      rw [heapGet_set_ne h n _ _ (by omega)]
      congr 1
      omega

theorem heapGet_append_objs (h : Heap) (l : List Input) (i : Nat) (hi : i < l.length) :
    heapGet (h ++ l) (h.length + i) = l.getD i default := by
  unfold heapGet
  rw [List.getD_append_right _ _ _ _ (by omega)]
  congr 1
  omega

theorem heapGet_append_left (h : Heap) (l : List Input) (r : Nat) (hr : r < h.length) :
    heapGet (h ++ l) r = heapGet h r := by
  unfold heapGet
  exact List.getD_append _ _ _ _ hr

theorem heapGet_clone (heap : Heap) (tx : TxH) (j : Nat) (hj : j < tx.ins.length) :
    heapGet (heap ++ tx.ins.map (heapGet heap)) (heap.length + j)
      = heapGet heap (tx.ins.getD j 0) := by
  rw [heapGet_append_objs heap _ j (by simpa using hj)]
  rw [List.getD_eq_getElem _ _ (by simpa using hj), List.getElem_map,
    List.getD_eq_getElem _ _ hj]

theorem heapGet_zeroSeq (H1 : Heap) (n k i j : Nat) (hjk : j < k)
    (hlen : n + k ≤ H1.length) :
    heapGet (zeroSeqExcept i H1 (consRange n k)) (n + j)
      = if j = i then heapGet H1 (n + j)
        else { heapGet H1 (n + j) with sequence := 0 } := by
  unfold zeroSeqExcept
  rw [heapGet_updateFrom_consRange _ k n 0 j H1 hjk hlen]
  simp

theorem heapGet_blankSet (H2 : Heap) (n k i j : Nat) (our : List Nat)
    (hik : i < k) (hjk : j < k) (hlen : H2.length = n + k) :
    heapGet (setScriptRef (blankScripts H2 (consRange n k))
        ((consRange n k).getD i 0) our) (n + j)
      = { heapGet H2 (n + j) with script := if j = i then our else [] } := by
  rw [consRange_getD k n i hik]
  unfold setScriptRef blankScripts
  have hblen : (updateFrom (fun _ o => { o with script := [] }) H2 0 (consRange n k)).length
      = H2.length := updateFrom_length _ _ _ _
  by_cases hji : j = i
  · subst hji
    rw [heapGet_set_self _ _ _ (by omega)]
    rw [heapGet_updateFrom_consRange _ k n 0 j H2 hjk (by omega)]
    simp
  · rw [heapGet_set_ne _ _ _ _ (by omega)]
    rw [heapGet_updateFrom_consRange _ k n 0 j H2 hjk (by omega)]
    simp [hji]

theorem heapGet_setScript_self (H2 : Heap) (r : Nat) (our : List Nat)
    (hr : r < H2.length) :
    heapGet (setScriptRef H2 r our) r = { heapGet H2 r with script := our } := by
  unfold setScriptRef
  exact heapGet_set_self _ _ _ hr

theorem heapGet_finishSigHash (h256 : List Nat → List Nat) (txTmp : TxH) (H2 : Heap)
    (i : Nat) (our : List Nat) (ht : Nat) (r : Nat)
    (hmem : r ∉ txTmp.ins) (hgd : r ≠ txTmp.ins.getD i 0) :
    heapGet (finishSigHash h256 txTmp H2 i our ht).2 r = heapGet H2 r := by
  unfold finishSigHash
  by_cases hbit : ht.testBit 7
  · rw [if_pos hbit]
    exact heapGet_set_ne _ _ _ _ fun he => hgd he.symm
  · rw [if_neg hbit]
    show heapGet (setScriptRef (blankScripts H2 txTmp.ins) (txTmp.ins.getD i 0) our) r
      = heapGet H2 r
    unfold setScriptRef blankScripts
    rw [heapGet_set_ne _ _ _ _ fun he => hgd he.symm]
    exact heapGet_updateFrom_notMem _ _ _ _ _ hmem

/-- C9: computing a signature hash leaves the receiver transaction
completely unchanged — every input record reachable from the original
transaction reads back identically after the call, and the resolved
transaction value (version, time, locktime, every input's hash, index,
script and sequence, every output's script and value) is the same before
and after, because the clone works on freshly allocated records. -/
theorem c9_no_mutation (h256 stripCS : List Nat → List Nat) (heap : Heap) (tx : TxH)
    (inIndex : Nat) (prevOutScript : List Nat) (hashType : Nat)
    (hvalid : ∀ r ∈ tx.ins, r < heap.length) :
    (∀ r ∈ tx.ins,
      heapGet (hashForSignature h256 stripCS heap tx inIndex prevOutScript hashType).2 r
        = heapGet heap r) ∧
    resolveTx (hashForSignature h256 stripCS heap tx inIndex prevOutScript hashType).2 tx
      = resolveTx heap tx := by
  have hmain : ∀ r ∈ tx.ins,
      heapGet (hashForSignature h256 stripCS heap tx inIndex prevOutScript hashType).2 r
        = heapGet heap r := by
    intro r hr
    have hrlt : r < heap.length := hvalid r hr
    unfold hashForSignature
    by_cases h1 : tx.ins.length ≤ inIndex
    · rw [if_pos h1]
    · rw [if_neg h1]
      simp only [cloneTx]
      have hnotmem : r ∉ consRange heap.length tx.ins.length := by
        rw [mem_consRange]
        omega
      have hgd : r ≠ (consRange heap.length tx.ins.length).getD inIndex 0 := by
        rw [consRange_getD _ _ _ (by omega)]
        omega
      have happ : heapGet (heap ++ tx.ins.map (heapGet heap)) r = heapGet heap r :=
        heapGet_append_left _ _ _ hrlt
      by_cases h2 : hashType % 32 = 2
      · rw [if_pos h2]
        rw [heapGet_finishSigHash _ _ _ _ _ _ _ hnotmem hgd]
        unfold zeroSeqExcept
        rw [heapGet_updateFrom_notMem _ _ _ _ _ hnotmem]
        exact happ
      · rw [if_neg h2]
        by_cases h3 : hashType % 32 = 3
        · rw [if_pos h3]
          by_cases h4 : tx.outs.length ≤ inIndex
          · rw [if_pos h4]
            exact happ
          · rw [if_neg h4]
            rw [heapGet_finishSigHash _ _ _ _ _ _ _ hnotmem hgd]
            unfold zeroSeqExcept
            rw [heapGet_updateFrom_notMem _ _ _ _ _ hnotmem]
            exact happ
        · rw [if_neg h3]
          rw [heapGet_finishSigHash _ _ _ _ _ _ _ hnotmem hgd]
          exact happ
  refine ⟨hmain, ?_⟩
  unfold resolveTx
  rw [List.map_congr_left hmain]

/-- Witness for C9 at a concrete one-input transaction on a concrete heap. -/
theorem c9_witness :
    (∀ r ∈ TxH.ins ⟨1, 0, 0, [0], [⟨[81], 9⟩]⟩,
      heapGet (hashForSignature (fun bs => bs) (fun s => s)
          [⟨List.replicate 32 0, 0, [2, 3], 4294967295⟩]
          ⟨1, 0, 0, [0], [⟨[81], 9⟩]⟩ 0 [4] 1).2 r
        = heapGet [⟨List.replicate 32 0, 0, [2, 3], 4294967295⟩] r) ∧
    resolveTx (hashForSignature (fun bs => bs) (fun s => s)
        [⟨List.replicate 32 0, 0, [2, 3], 4294967295⟩]
        ⟨1, 0, 0, [0], [⟨[81], 9⟩]⟩ 0 [4] 1).2 ⟨1, 0, 0, [0], [⟨[81], 9⟩]⟩
      = resolveTx [⟨List.replicate 32 0, 0, [2, 3], 4294967295⟩]
        ⟨1, 0, 0, [0], [⟨[81], 9⟩]⟩ :=
  c9_no_mutation (fun bs => bs) (fun s => s) _ _ 0 [4] 1 (by decide)

theorem map_consRange_heapGet (H : Heap) (n k : Nat) :
    (consRange n k).map (heapGet H) = (List.range k).map fun j => heapGet H (n + j) := by
  refine List.ext_getElem (by simp [consRange_length]) fun j h1 h2 => ?_
  have hj : j < k := by simpa [consRange_length] using h1
  rw [List.getElem_map, List.getElem_map, List.getElem_range]
  congr 1
  rw [← List.getD_eq_getElem (consRange n k) 0 (by rw [consRange_length]; exact hj)]
  exact consRange_getD k n j hj

theorem mapIdx_as_range {α β : Type} [Inhabited α] (f : Nat → α → β) (l : List α) :
    l.mapIdx f = (List.range l.length).map fun j => f j (l.getD j default) := by
  refine List.ext_getElem (by simp) fun j h1 h2 => ?_
  have hj : j < l.length := by simpa using h1
  rw [List.getElem_mapIdx, List.getElem_map, List.getElem_range]
  congr 1
  exact (List.getD_eq_getElem l default hj).symm

theorem range_map_getD {β : Type} (k j : Nat) (g : Nat → β) (d : β) (hj : j < k) :
    ((List.range k).map g).getD j d = g j := by
  rw [List.getD_eq_getElem _ _ (by simpa using hj), List.getElem_map, List.getElem_range]

theorem resolve_ins_getD (heap : Heap) (tx : TxH) (j : Nat) (hj : j < tx.ins.length) :
    (tx.ins.map (heapGet heap)).getD j default = heapGet heap (tx.ins.getD j 0) := by
  rw [List.getD_eq_getElem _ _ (by simpa using hj), List.getElem_map,
    List.getD_eq_getElem _ _ hj]

theorem zeroed_getD (ins0 : List Input) (i j : Nat) (hj : j < ins0.length) :
    (ins0.mapIdx fun j2 o => if j2 = i then o else { o with sequence := 0 }).getD j default
      = if j = i then ins0.getD j default
        else { ins0.getD j default with sequence := 0 } := by
  rw [List.getD_eq_getElem _ _ (by simpa using hj), List.getElem_mapIdx,
    List.getD_eq_getElem ins0 default hj]

/-- The digest computed by the common tail of `hashForSignature`, as a pure
function of a pointwise description `q` of the clone's input records. -/
theorem finishSigHash_digest (h256 : List Nat → List Nat) (txTmp : TxH) (H2 : Heap)
    (n k i : Nat) (our : List Nat) (ht : Nat) (q : Nat → Input)
    (hins : txTmp.ins = consRange n k) (hik : i < k) (hlen : H2.length = n + k)
    (hq : ∀ j, j < k → heapGet H2 (n + j) = q j) :
    (finishSigHash h256 txTmp H2 i our ht).1
      = h256 (serializeTx
          ⟨txTmp.version, txTmp.time, txTmp.locktime,
            if ht.testBit 7 then [{ q i with script := our }]
            else (List.range k).map fun j => { q j with script := if j = i then our else [] },
            txTmp.outs⟩ ++ leBytes 4 ht) := by
  unfold finishSigHash
  by_cases hbit : ht.testBit 7
  · rw [if_pos hbit, if_pos hbit]
    show h256 (serializeTx (resolveTx (setScriptRef H2 (txTmp.ins.getD i 0) our)
        { txTmp with ins := [txTmp.ins.getD i 0] }) ++ leBytes 4 ht) = _
    congr 3
    unfold resolveTx
    simp only [List.map_cons, List.map_nil]
    congr 2
    rw [hins, consRange_getD k n i hik]
    rw [heapGet_setScript_self H2 (n + i) our (by omega), hq i hik]
  · rw [if_neg hbit, if_neg hbit]
    show h256 (serializeTx (resolveTx
        (setScriptRef (blankScripts H2 txTmp.ins) (txTmp.ins.getD i 0) our) txTmp)
          ++ leBytes 4 ht) = _
    congr 3
    unfold resolveTx
    congr 1
    rw [hins, map_consRange_heapGet]
    refine List.map_congr_left fun j hj => ?_
    rw [List.mem_range] at hj
    rw [heapGet_blankSet H2 n k i j our hik hj hlen, hq j hj]

/-- C1: `hashForSignature` returns the fixed sentinel (31 zero bytes then
`0x01`) when the input index is at or beyond the input count, likewise for
`SINGLE` (`hashType & 0x1f = 3`) when the input index is at or beyond the
output count, and in all other cases the double-hash of the mutated clone's
serialization with the hashType appended as a little-endian 32-bit trailer;
the hashType is restricted to the signed-32-bit range in which
`writeInt32LE` accepts it. -/
theorem c1_hashForSignature (h256 stripCS : List Nat → List Nat) (heap : Heap) (tx : TxH)
    (inIndex : Nat) (prevOutScript : List Nat) (hashType : Nat)
    (hht : hashType < 2 ^ 31) :
    (hashForSignature h256 stripCS heap tx inIndex prevOutScript hashType).1
      = if tx.ins.length ≤ inIndex then ONE32
        else if hashType % 32 = 3 ∧ tx.outs.length ≤ inIndex then ONE32
        else h256 (serializeTx (sigHashClone stripCS (resolveTx heap tx) inIndex
            prevOutScript hashType) ++ leBytes 4 hashType) := by
  unfold hashForSignature
  by_cases h1 : tx.ins.length ≤ inIndex
  · rw [if_pos h1, if_pos h1]
  · rw [if_neg h1, if_neg h1]
    simp only [cloneTx]
    have hik : inIndex < tx.ins.length := by omega
    have hH1len : (heap ++ tx.ins.map (heapGet heap)).length
        = heap.length + tx.ins.length := by simp
    have hzlen : (zeroSeqExcept inIndex (heap ++ tx.ins.map (heapGet heap))
        (consRange heap.length tx.ins.length)).length
        = heap.length + tx.ins.length := by
      unfold zeroSeqExcept
      rw [updateFrom_length]
      exact hH1len
    have hqz : ∀ j, j < tx.ins.length →
        heapGet (zeroSeqExcept inIndex (heap ++ tx.ins.map (heapGet heap))
          (consRange heap.length tx.ins.length)) (heap.length + j)
        = if j = inIndex then heapGet heap (tx.ins.getD j 0)
          else { heapGet heap (tx.ins.getD j 0) with sequence := 0 } := by
      intro j hj
      rw [heapGet_zeroSeq _ heap.length tx.ins.length inIndex j hj (by omega),
        heapGet_clone heap tx j hj]
    have hqa : ∀ j, j < tx.ins.length →
        heapGet (heap ++ tx.ins.map (heapGet heap)) (heap.length + j)
        = heapGet heap (tx.ins.getD j 0) := fun j hj => heapGet_clone heap tx j hj
    by_cases h2 : hashType % 32 = 2
    · rw [if_pos h2, if_neg (by rintro ⟨h3, _⟩; omega)]
      rw [finishSigHash_digest h256 _ _ heap.length tx.ins.length inIndex
        (stripCS prevOutScript) hashType
        (fun j => if j = inIndex then heapGet heap (tx.ins.getD j 0)
          else { heapGet heap (tx.ins.getD j 0) with sequence := 0 })
        rfl hik hzlen hqz]
      have hclone : sigHashClone stripCS (resolveTx heap tx) inIndex prevOutScript hashType
          = ⟨tx.version, tx.time, tx.locktime,
              if hashType.testBit 7
              then [{ (if inIndex = inIndex then heapGet heap (tx.ins.getD inIndex 0)
                  else { heapGet heap (tx.ins.getD inIndex 0) with sequence := 0 })
                  with script := stripCS prevOutScript }]
              else (List.range tx.ins.length).map fun j =>
                { (if j = inIndex then heapGet heap (tx.ins.getD j 0)
                    else { heapGet heap (tx.ins.getD j 0) with sequence := 0 })
                  with script := if j = inIndex then stripCS prevOutScript else [] },
              []⟩ := by
        unfold sigHashClone resolveTx
        dsimp only
        rw [if_pos h2]
        by_cases hbit : hashType.testBit 7
        · rw [if_pos hbit, if_pos hbit]
          congr 2
          rw [zeroed_getD _ inIndex inIndex (by simpa using hik),
            resolve_ins_getD heap tx inIndex hik]
        · rw [if_neg hbit, if_neg hbit]
          congr 1
          rw [mapIdx_as_range]
          simp only [List.length_mapIdx, List.length_map]
          refine List.map_congr_left fun j hj => ?_
          rw [List.mem_range] at hj
          rw [zeroed_getD _ inIndex j (by simpa using hj),
            resolve_ins_getD heap tx j hj]
      rw [hclone]
    · rw [if_neg h2]
      by_cases h3 : hashType % 32 = 3
      · rw [if_pos h3]
        by_cases h4 : tx.outs.length ≤ inIndex
        · rw [if_pos h4, if_pos ⟨h3, h4⟩]
        · rw [if_neg h4, if_neg (by rintro ⟨_, h4'⟩; omega)]
          rw [finishSigHash_digest h256 _ _ heap.length tx.ins.length inIndex
            (stripCS prevOutScript) hashType
            (fun j => if j = inIndex then heapGet heap (tx.ins.getD j 0)
              else { heapGet heap (tx.ins.getD j 0) with sequence := 0 })
            rfl hik hzlen hqz]
          have hclone : sigHashClone stripCS (resolveTx heap tx) inIndex prevOutScript hashType
              = ⟨tx.version, tx.time, tx.locktime,
                  if hashType.testBit 7
                  then [{ (if inIndex = inIndex then heapGet heap (tx.ins.getD inIndex 0)
                      else { heapGet heap (tx.ins.getD inIndex 0) with sequence := 0 })
                      with script := stripCS prevOutScript }]
                  else (List.range tx.ins.length).map fun j =>
                    { (if j = inIndex then heapGet heap (tx.ins.getD j 0)
                        else { heapGet heap (tx.ins.getD j 0) with sequence := 0 })
                      with script := if j = inIndex then stripCS prevOutScript else [] },
                  List.replicate inIndex BLANK_OUTPUT ++ [tx.outs.getD inIndex default]⟩ := by
            unfold sigHashClone resolveTx
            dsimp only
            rw [if_neg (show ¬hashType % 32 = 2 by omega), if_pos h3]
            by_cases hbit : hashType.testBit 7
            · rw [if_pos hbit, if_pos hbit]
              congr 2
              rw [zeroed_getD _ inIndex inIndex (by simpa using hik),
                resolve_ins_getD heap tx inIndex hik]
            · rw [if_neg hbit, if_neg hbit]
              congr 1
              rw [mapIdx_as_range]
              simp only [List.length_mapIdx, List.length_map]
              refine List.map_congr_left fun j hj => ?_
              rw [List.mem_range] at hj
              rw [zeroed_getD _ inIndex j (by simpa using hj),
                resolve_ins_getD heap tx j hj]
          rw [hclone]
      · rw [if_neg h3, if_neg (by rintro ⟨h3', _⟩; omega)]
        rw [finishSigHash_digest h256 _ _ heap.length tx.ins.length inIndex
          (stripCS prevOutScript) hashType
          (fun j => heapGet heap (tx.ins.getD j 0)) rfl hik hH1len hqa]
        have hclone : sigHashClone stripCS (resolveTx heap tx) inIndex prevOutScript hashType
            = ⟨tx.version, tx.time, tx.locktime,
                if hashType.testBit 7
                then [{ heapGet heap (tx.ins.getD inIndex 0)
                    with script := stripCS prevOutScript }]
                else (List.range tx.ins.length).map fun j =>
                  { heapGet heap (tx.ins.getD j 0)
                    with script := if j = inIndex then stripCS prevOutScript else [] },
                tx.outs⟩ := by
          unfold sigHashClone resolveTx
          dsimp only
          rw [if_neg (show ¬hashType % 32 = 2 by omega),
            if_neg (show ¬hashType % 32 = 3 by omega)]
          by_cases hbit : hashType.testBit 7
          · rw [if_pos hbit, if_pos hbit]
            congr 2
            rw [resolve_ins_getD heap tx inIndex hik]
          · rw [if_neg hbit, if_neg hbit]
            congr 1
            rw [mapIdx_as_range]
            simp only [List.length_map]
            refine List.map_congr_left fun j hj => ?_
            rw [List.mem_range] at hj
            rw [resolve_ins_getD heap tx j hj]
        rw [hclone]

/-- Witness for C1 at a concrete one-input, one-output transaction with
`hashType = 1` (`ALL`). -/
theorem c1_witness :
    (hashForSignature (fun bs => bs) (fun s => s) [⟨List.replicate 32 0, 0, [2], 4294967295⟩]
        ⟨1, 0, 0, [0], [⟨[81], 9⟩]⟩ 0 [4] 1).1
      = if (TxH.ins ⟨1, 0, 0, [0], [⟨[81], 9⟩]⟩).length ≤ 0 then ONE32
        else if 1 % 32 = 3 ∧ (TxH.outs ⟨1, 0, 0, [0], [⟨[81], 9⟩]⟩).length ≤ 0 then ONE32
        else (fun bs => bs) (serializeTx (sigHashClone (fun s => s)
            (resolveTx [⟨List.replicate 32 0, 0, [2], 4294967295⟩] ⟨1, 0, 0, [0], [⟨[81], 9⟩]⟩)
            0 [4] 1) ++ leBytes 4 1) :=
  c1_hashForSignature (fun bs => bs) (fun s => s)
    [⟨List.replicate 32 0, 0, [2], 4294967295⟩] ⟨1, 0, 0, [0], [⟨[81], 9⟩]⟩ 0 [4] 1
    (by decide)

end Yacoin
